import Mathlib

/-!
Verification development for the `Checklist` application (`src/V1.1.py`),
task/category persistence and consistency layer (`TaskManager`).

Python represents a task belonging to several categories by storing the *same*
mutable dict object in several per-category lists.  To capture this aliasing
faithfully, the embedding uses an explicit heap: task objects live at numeric
addresses, and the category index (`self.tasks`) maps category names to lists
of addresses.  Mutating a task through one list is visible through every list
holding the same address, exactly as in the source.  Python dicts are modelled
as insertion-ordered association lists; dict updates touch the (unique) entry
with the given key.

Clock reads (`time.strftime`, `time.time`, `datetime.now`) are explicit
parameters of the operations that perform them.
-/

namespace Checklist

/-- One task dict, as created by `TaskManager.create_task` / stored in
`tasks.json`.  Field names follow the source. -/
structure Task where
  text : String
  done : Bool
  created_time : String
  completed_time : Option String
  priority : String
  bold : Bool
  id : Int
  categories : List String
deriving DecidableEq, Repr

/-- The heap: addresses to task objects (Python object identity). -/
abbrev Heap := List (Nat × Task)

/-- The category index `self.tasks`: category name to list of task addresses. -/
abbrev Index := List (String × List Nat)

/-- Dict lookup on the heap (first entry with the given address). -/
def hfind (h : Heap) (a : Nat) : Option Task :=
  match h with
  | [] => none
  | (b, t) :: rest => if b = a then some t else hfind rest a

/-- In-place mutation of the object at address `a` (Python `task[...] = ...`). -/
def hmod (h : Heap) (a : Nat) (f : Task → Task) : Heap :=
  match h with
  | [] => []
  | (b, t) :: rest => (if b = a then (b, f t) else (b, t)) :: hmod rest a f

/-- Dict lookup on the index (`self.tasks[c]`, as an `Option`). -/
def ifind (i : Index) (c : String) : Option (List Nat) :=
  match i with
  | [] => none
  | (d, rs) :: rest => if d = c then some rs else ifind rest c

/-- Replace the list stored under key `c` (`self.tasks[c] = ...` on a present key). -/
def imod (i : Index) (c : String) (f : List Nat → List Nat) : Index :=
  match i with
  | [] => []
  | (d, rs) :: rest => (if d = c then (d, f rs) else (d, rs)) :: imod rest c f

/-- `if c not in self.tasks: self.tasks[c] = []` (new dict keys append at the end). -/
def iensure (i : Index) (c : String) : Index :=
  match ifind i c with
  | some _ => i
  | none => i ++ [(c, [])]

/-- `del self.tasks[c]`. -/
def iremove (i : Index) (c : String) : Index :=
  match i with
  | [] => []
  | (d, rs) :: rest => if d = c then iremove rest c else (d, rs) :: iremove rest c

/-- Replace the first occurrence of `a` in a list
(`lst[lst.index(a)] = b` in `edit_category`). -/
def replaceFirst (l : List String) (a b : String) : List String :=
  match l with
  | [] => []
  | x :: rest => if x = a then b :: rest else x :: replaceFirst rest a b

/-- In-memory state of a `TaskManager` (pagination fields, which never touch
the index, are omitted). -/
structure Store where
  heap : Heap
  nextAddr : Nat
  index : Index
  categories : List String
  current : String
  defaultBold : Bool
deriving DecidableEq, Repr

/-- The `TaskManager.__init__` in-memory defaults before any load. -/
def initStore : Store :=
  { heap := [], nextAddr := 0, index := [("All", [])],
    categories := ["All"], current := "All", defaultBold := false }

/-- `category = category or self.current_category`: `None` and the empty
string both fall back to the current category. -/
def resolveCat (category : Option String) (cur : String) : String :=
  match category with
  | none => cur
  | some c => if c = "" then cur else c

/-- `TaskManager.create_task`: a fresh task dict with default values.
`nowStr` is `time.strftime("%Y-%m-%d %H:%M")` and `nowMs` is
`int(time.time() * 1000)`, the two clock reads of the constructor. -/
def createTask (text nowStr : String) (nowMs : Int) (defaultBold : Bool) : Task :=
  { text := text, done := false, created_time := nowStr, completed_time := none,
    priority := "none", bold := defaultBold, id := nowMs, categories := ["All"] }

/-- `TaskManager.normalize_task` on an in-memory (well-typed) task dict: the
type coercions (`str`, `bool`, `int`, `list`) are the identity, so only two
fields can change: a falsy `completed_time` (empty string) becomes `None`, and
an unknown `priority` becomes `"none"`.  The non-dict / exception branches are
unreachable on well-typed values. -/
def normalizeTask (t : Task) : Task :=
  { t with
    completed_time :=
      match t.completed_time with
      | some s => if s = "" then none else some s
      | none => none,
    priority := if t.priority ∈ ["high", "medium", "low", "none"] then t.priority else "none" }

/-- The store mutation performed by every `save_tasks` call before building the
document: `for category in self.categories: if category not in self.tasks:
self.tasks[category] = []`. -/
def ensureKeys (s : Store) : Store :=
  { s with index := s.categories.foldl (fun i c => iensure i c) s.index }

/-- `TaskManager.add_task`.  The trailing `ensureKeys` is the in-memory effect
of the `save_tasks()` call on the success path.  If `category != "All"` but the
index has no `"All"` key, the source raises `KeyError` after the first append
and never reaches `save_tasks` or `return True`; the Bool of that branch is
unreachable in the source. -/
def addTask (s : Store) (text : String) (category : Option String) (priority : String)
    (bold : Option Bool) (nowStr : String) (nowMs : Int) : Store × Bool :=
  if text = "" ∨ text = "Add task here" then (s, false)
  else
    let cat := resolveCat category s.current
    let t0 := createTask text nowStr nowMs s.defaultBold
    let t1 := { t0 with priority := priority, bold := bold.getD s.defaultBold }
    let t2 := if cat ≠ "All" ∧ cat ∉ t1.categories
              then { t1 with categories := t1.categories ++ [cat] } else t1
    let a := s.nextAddr
    let heap1 := s.heap ++ [(a, t2)]
    let idx1 := imod (iensure s.index cat) cat (fun rs => rs ++ [a])
    if cat = "All" then
      (ensureKeys { s with heap := heap1, nextAddr := a + 1, index := idx1 }, true)
    else
      match ifind idx1 "All" with
      | some _ =>
          (ensureKeys { s with heap := heap1, nextAddr := a + 1,
                               index := imod idx1 "All" (fun rs => rs ++ [a]) }, true)
      | none =>
          ({ s with heap := heap1, nextAddr := a + 1, index := idx1 }, false)

/-- First address in `refs` whose task has the given id (the
`for t in ...: if t["id"] == task_id: ... break` scan). -/
def findById (h : Heap) (refs : List Nat) (tid : Int) : Option Nat :=
  match refs with
  | [] => none
  | r :: rest =>
    match hfind h r with
    | some t => if t.id = tid then some r else findById h rest tid
    | none => findById h rest tid

/-- Remove the first id-match and return its address together with the
remaining list (`self.tasks[c].pop(i)` at the first matching index). -/
def popFirstById (h : Heap) (refs : List Nat) (tid : Int) : Option (Nat × List Nat) :=
  match refs with
  | [] => none
  | r :: rest =>
    match hfind h r with
    | some t =>
      if t.id = tid then some (r, rest)
      else (popFirstById h rest tid).map (fun p => (p.1, r :: p.2))
    | none => (popFirstById h rest tid).map (fun p => (p.1, r :: p.2))

/-- One completion pass: `for task in lst: if not task["done"]:
task["done"] = True; task["completed_time"] = current_time`. -/
def completePass (h : Heap) (refs : List Nat) (now : String) : Heap :=
  refs.foldl
    (fun h r =>
      match hfind h r with
      | some t =>
        if t.done then h
        else hmod h r (fun u => { u with done := true, completed_time := some now })
      | none => h)
    h

/-- `TaskManager.complete_all_tasks`.  A missing category key raises `KeyError`
before any mutation; a missing `"All"` key raises after the first pass (so the
first pass persists in memory and `save_tasks` is never reached). -/
def completeAllTasks (s : Store) (category : Option String) (now : String) : Store :=
  let cat := resolveCat category s.current
  match ifind s.index cat with
  | none => s
  | some refs =>
    let heap1 := completePass s.heap refs now
    if cat = "All" then ensureKeys { s with heap := heap1 }
    else
      match ifind s.index "All" with
      | none => { s with heap := heap1 }
      | some allRefs => ensureKeys { s with heap := completePass heap1 allRefs now }

/-- The fan-out loop of `toggle_task`: for every category in the toggled
task's `categories`, set `done`/`completed_time` on every task with the same
id in that category's list. -/
def propagateDone (h0 : Heap) (idx : Index) (cats : List String) (tid : Int)
    (newDone : Bool) (newTime : Option String) : Heap :=
  cats.foldl
    (fun h c =>
      match ifind idx c with
      | none => h
      | some rs =>
        rs.foldl
          (fun h r =>
            match hfind h r with
            | some u =>
              if u.id = tid
              then hmod h r (fun v => { v with done := newDone, completed_time := newTime })
              else h
            | none => h)
          h)
    h0

/-- `TaskManager.toggle_task`: flip `done` at a position of a category's list,
update `completed_time`, fan out to same-id tasks, then save.  Out-of-range
index (or missing category key) leaves the store unchanged. -/
def toggleTask (s : Store) (index : Nat) (category : Option String) (now : String) : Store :=
  let cat := resolveCat category s.current
  match ifind s.index cat with
  | none => s
  | some refs =>
    if h : index < refs.length then
      let a := refs.get ⟨index, h⟩
      match hfind s.heap a with
      | none => s
      | some t =>
        let newDone := !t.done
        let newTime := if newDone then some now else none
        let heap1 := hmod s.heap a (fun u => { u with done := newDone, completed_time := newTime })
        ensureKeys { s with heap := propagateDone heap1 s.index t.categories t.id newDone newTime }
    else s

/-- The fan-out loop of `edit_task`: over *every* index entry, rewrite the text
of every task whose `(text, created_time)` matches the looked-up task's. -/
def editPass (h0 : Heap) (idx : Index) (oldText oldCreated newText : String) : Heap :=
  idx.foldl
    (fun h p =>
      p.2.foldl
        (fun h r =>
          match hfind h r with
          | some u =>
            if u.text = oldText ∧ u.created_time = oldCreated
            then hmod h r (fun v => { v with text := newText })
            else h
          | none => h)
        h)
    h0

/-- `TaskManager.edit_task`: look up by id in the current category, then
rewrite by `(text, created_time)` match everywhere. -/
def editTask (s : Store) (taskId : Int) (newText : String) : Store × Bool :=
  match ifind s.index s.current with
  | none => (s, false)
  | some refs =>
    match findById s.heap refs taskId with
    | none => (s, false)
    | some a =>
      match hfind s.heap a with
      | none => (s, false)
      | some t =>
        (ensureKeys { s with heap := editPass s.heap s.index t.text t.created_time newText }, true)

/-- The fan-out loop of `toggle_task_bold`: over every index entry, flip the
bold flag of every task whose `(text, created_time)` matches.  An object
aliased into several lists is flipped once per occurrence. -/
def boldPass (h0 : Heap) (idx : Index) (oldText oldCreated : String) : Heap :=
  idx.foldl
    (fun h p =>
      p.2.foldl
        (fun h r =>
          match hfind h r with
          | some u =>
            if u.text = oldText ∧ u.created_time = oldCreated
            then hmod h r (fun v => { v with bold := !v.bold })
            else h
          | none => h)
        h)
    h0

/-- `TaskManager.toggle_task_bold`. -/
def toggleTaskBold (s : Store) (taskId : Int) : Store :=
  match ifind s.index s.current with
  | none => s
  | some refs =>
    match findById s.heap refs taskId with
    | none => s
    | some a =>
      match hfind s.heap a with
      | none => s
      | some t =>
        ensureKeys { s with heap := boldPass s.heap s.index t.text t.created_time }

/-- `TaskManager.move_task_to_category`: find by id in the current category,
add the target category (membership list and index list) if absent, then, when
the current category is not `"All"`, drop the id from the current category's
list and from the task's membership list. -/
def moveTaskToCategory (s : Store) (taskId : Int) (category : String) : Store :=
  match ifind s.index s.current with
  | none => s
  | some refs =>
    match findById s.heap refs taskId with
    | none => s
    | some a =>
      match hfind s.heap a with
      | none => s
      | some t =>
        let heap1 :=
          if category ∉ t.categories
          then hmod s.heap a (fun u => { u with categories := u.categories ++ [category] })
          else s.heap
        let idx1 :=
          if category ∉ t.categories
          then imod (iensure s.index category) category (fun rs => rs ++ [a])
          else s.index
        if s.current = "All" then ensureKeys { s with heap := heap1, index := idx1 }
        else
          let idx2 := imod idx1 s.current
            (fun rs => rs.filter (fun r =>
              match hfind heap1 r with
              | some u => u.id ≠ taskId
              | none => true))
          let heap2 :=
            match hfind heap1 a with
            | some u =>
              if s.current ∈ u.categories
              then hmod heap1 a (fun v => { v with categories := v.categories.erase s.current })
              else heap1
            | none => heap1
          ensureKeys { s with heap := heap2, index := idx2 }

/-- `TaskManager.remove_task_from_category`: no-op (without saving) in `"All"`;
otherwise pop the first id-match from the current category's list and erase the
category from that task's membership list.  `save_tasks` runs even when no
match was found (the loop just completes). -/
def removeTaskFromCategory (s : Store) (taskId : Int) : Store :=
  if s.current = "All" then s
  else
    match ifind s.index s.current with
    | none => s
    | some refs =>
      match popFirstById s.heap refs taskId with
      | none => ensureKeys s
      | some (a, refs') =>
        let idx1 := imod s.index s.current (fun _ => refs')
        let heap1 :=
          match hfind s.heap a with
          | some t =>
            if s.current ∈ t.categories
            then hmod s.heap a (fun u => { u with categories := u.categories.erase s.current })
            else s.heap
          | none => s.heap
        ensureKeys { s with index := idx1, heap := heap1 }

/-- `TaskManager.remove_task`: find by id in the current category, then filter
the id out of every category list named in that task's membership list. -/
def removeTask (s : Store) (taskId : Int) : Store × Bool :=
  match ifind s.index s.current with
  | none => (s, false)
  | some refs =>
    match findById s.heap refs taskId with
    | none => (s, false)
    | some a =>
      match hfind s.heap a with
      | none => (s, false)
      | some t =>
        let idx1 := t.categories.foldl
          (fun idx c =>
            match ifind idx c with
            | none => idx
            | some _ =>
              imod idx c (fun rs => rs.filter (fun r =>
                match hfind s.heap r with
                | some u => u.id ≠ taskId
                | none => true)))
          s.index
        (ensureKeys { s with index := idx1 }, true)

/-- `TaskManager.add_category`: `if name and name not in self.categories`. -/
def addCategory (s : Store) (name : String) : Store × Bool :=
  if name ≠ "" ∧ name ∉ s.categories
  then ({ s with categories := s.categories ++ [name] }, true)
  else (s, false)

/-- `TaskManager.edit_category`: renames the entry in the ordered category
*list* only; the index (`self.tasks`) is not touched. -/
def editCategory (s : Store) (oldName newName : String) : Store × Bool :=
  if oldName = "All" ∨ newName ∈ s.categories then (s, false)
  else if oldName ∈ s.categories
  then ({ s with categories := replaceFirst s.categories oldName newName }, true)
  else (s, false)

/-- The re-homing loop of `remove_category`: append each task of the removed
category to `"All"` unless a *value-equal* task is already there
(`if task not in self.tasks["All"]`, Python dict equality). -/
def rehomePass (h : Heap) (idx : Index) (refs : List Nat) : Index :=
  refs.foldl
    (fun idx r =>
      match hfind h r with
      | none => idx
      | some t =>
        match ifind idx "All" with
        | none => idx
        | some allRefs =>
          if allRefs.any (fun r' => hfind h r' = some t) then idx
          else imod idx "All" (fun rs => rs ++ [r]))
    idx

/-- `TaskManager.remove_category`.  A missing index key for `name` raises
`KeyError` before any mutation; a missing `"All"` key raises on the first loop
iteration, also before any mutation. -/
def removeCategory (s : Store) (name : String) : Store × Bool :=
  if name ≠ "All" ∧ name ∈ s.categories then
    match ifind s.index name with
    | none => (s, false)
    | some refs =>
      if refs ≠ [] ∧ ifind s.index "All" = none then (s, false)
      else
        let idx1 := rehomePass s.heap s.index refs
        ({ s with index := iremove idx1 name,
                  categories := s.categories.erase name,
                  current := if s.current = name then "All" else s.current }, true)
  else (s, false)

/-- `TaskManager.get_tasks`: inserts an empty list for an unknown key, then
returns a normalized copy of the category's list. -/
def getTasks (s : Store) (category : Option String) : Store × List Task :=
  let cat := resolveCat category s.current
  match ifind s.index cat with
  | some refs => (s, (refs.filterMap (hfind s.heap)).map normalizeTask)
  | none => ({ s with index := s.index ++ [(cat, [])] }, [])

/-- `switch_category` (final definition in the source): only switches to a
name that is a key of the index. -/
def switchCategory (s : Store) (name : String) : Store :=
  match ifind s.index name with
  | some _ => { s with current := name }
  | none => s

/-! ## Persistence: `save_tasks` / `load_tasks` over a modelled file system -/

/-- The JSON document written to `tasks.json`:
`{"version": "1.1", "tasks": {"All": [...], "<cat>": [...], ...}}`.
Task lists hold task *values* (serialization flattens aliasing). -/
structure Doc where
  version : String
  docTasks : List (String × List Task)
deriving DecidableEq, Repr

/-- Lookup in the document's `"tasks"` object. -/
def dfind (l : List (String × List Task)) (c : String) : Option (List Task) :=
  match l with
  | [] => none
  | (d, ts) :: rest => if d = c then some ts else dfind rest c

/-- The files touched by the persistence layer (`tasks.json`, its `.backup`
sidecar, `categories.json`).  The `.tmp` sidecar and the lock marker are
created and removed within a single save and are not observable afterwards. -/
structure FS where
  tasksFile : Option Doc
  backupFile : Option Doc
  categoriesFile : Option (List String)
deriving DecidableEq, Repr

/-- Schema validation of one task against `TASK_SCHEMA`.  On a well-typed
task value every structural requirement (required keys, field types) holds by
construction; the only constraint with content is
`priority ∈ {high, medium, low, none}`. -/
def validateTask (t : Task) : Bool :=
  t.priority = "high" ∨ t.priority = "medium" ∨ t.priority = "low" ∨ t.priority = "none"

/-- `jsonschema.validate(instance=data, schema=TASK_SCHEMA)` as a Bool. -/
def validateDoc (d : Doc) : Bool :=
  d.docTasks.all (fun p => p.2.all validateTask)

/-- The task values currently stored under category `c` (dangling addresses,
which never occur in program states, are skipped). -/
def valuesAt (s : Store) (c : String) : Option (List Task) :=
  (ifind s.index c).map (fun rs => rs.filterMap (hfind s.heap))

/-- The document `save_tasks` builds:
`{"All": tasks["All"], **{cat: tasks[cat] for cat in categories if cat != "All"}}`. -/
def buildDoc (s : Store) : Doc :=
  { version := "1.1",
    docTasks :=
      ("All", (valuesAt s "All").getD []) ::
      (s.categories.filter (fun c => c ≠ "All")).map (fun c => (c, (valuesAt s c).getD [])) }

/-- `TaskManager.save_tasks` over the modelled file system.

Order of events in the source: acquire the lock, copy `tasks.json` to
`.backup` if it exists, ensure every listed category has an index key, build
the document, validate (on failure: message and `return`, leaving the live
file untouched), write to `.tmp`, read back and compare (a JSON round-trip of
the just-dumped value, which matches structurally), replace the live file,
`save_categories()`, delete the backup.  When no prior file existed,
`backup_file` is unbound and the `backup_file.exists()` check raises
`NameError` *after* the rename and the categories write, so the live and
categories files are still committed and a stale backup is not removed. -/
def saveTasks (s : Store) (fs : FS) : Store × FS :=
  let fs1 :=
    match fs.tasksFile with
    | some d => { fs with backupFile := some d }
    | none => fs
  let s1 := ensureKeys s
  let data := buildDoc s1
  if validateDoc data then
    let fs2 := { fs1 with tasksFile := some data, categoriesFile := some s1.categories }
    match fs.tasksFile with
    | some _ => (s1, { fs2 with backupFile := none })
    | none => (s1, fs2)
  else
    (s1, fs1)

/-- `{category: [] for category in self.categories}`: duplicate names collapse
onto a single dict key. -/
def initIndex (cats : List String) : Index :=
  cats.foldl (fun i c => iensure i c) []

/-- The body of the `load_tasks` task loop for one normalized task `t`
allocated at address `a`: `for category in task["categories"]: if category
not in self.categories: self.categories.append(category); if category in
self.tasks: self.tasks[category].append(task)`. -/
def loadFanOut (a : Nat) (tcats : List String) : List String × Index → List String × Index :=
  fun acc =>
    tcats.foldl
      (fun acc c =>
        let cats := if c ∈ acc.1 then acc.1 else acc.1 ++ [c]
        let idx :=
          match ifind acc.2 c with
          | some _ => imod acc.2 c (fun rs => rs ++ [a])
          | none => acc.2
        (cats, idx))
      acc

/-- The `for task_data in data["tasks"].get("All", [])` loop of `load_tasks`:
normalize each task once, allocate one object for it, and fan it out to each
of its categories. -/
def loadAllLoop (docAll : List Task) (n0 : Nat) (h0 : Heap) (cats0 : List String)
    (idx0 : Index) : Heap × Nat × List String × Index :=
  docAll.foldl
    (fun acc td =>
      let t := normalizeTask td
      let a := acc.2.1
      let p := loadFanOut a t.categories (acc.2.2.1, acc.2.2.2)
      (acc.1 ++ [(a, t)], a + 1, p.1, p.2))
    (h0, n0, cats0, idx0)

/-- `TaskManager.__init__` at startup: `load_categories()` then `load_tasks()`.
A missing `categories.json` yields `["All"]`; a missing `tasks.json` yields the
`{"All": []}` index; otherwise the index is rebuilt from the `"All"` list of
the document alone.  `load_tasks` ends by persisting the (possibly grown)
category list. -/
def loadStore (fs : FS) : Store × FS :=
  let cats0 := fs.categoriesFile.getD ["All"]
  match fs.tasksFile with
  | none =>
    ({ heap := [], nextAddr := 0, index := [("All", [])],
       categories := cats0, current := "All", defaultBold := false },
     { fs with categoriesFile := some cats0 })
  | some doc =>
    let docAll := (dfind doc.docTasks "All").getD []
    let r := loadAllLoop docAll 0 [] cats0 (initIndex cats0)
    let idx1 := iensure r.2.2.2 "All"
    ({ heap := r.1, nextAddr := r.2.1, index := idx1,
       categories := r.2.2.1, current := "All", defaultBold := false },
     { fs with categoriesFile := some r.2.2.1 })


/-- The addresses (allocated from `n0` on) at which the `load_tasks` task loop
fans a document task out to category `c`: one address per document task, kept
when `c` is among the task's categories. -/
def fanAddrs (docAll : List Task) (n0 : Nat) (c : String) : List Nat :=
  match docAll with
  | [] => []
  | t :: rest =>
    if c ∈ (normalizeTask t).categories
    then n0 :: fanAddrs rest (n0 + 1) c
    else fanAddrs rest (n0 + 1) c

/-- The heap built by the `load_tasks` task loop: one fresh address per
document task, in document order, holding the normalized task. -/
def allocHeap (docAll : List Task) (n0 : Nat) : Heap :=
  match docAll with
  | [] => []
  | t :: rest => (n0, normalizeTask t) :: allocHeap rest (n0 + 1)

/-! ## Mutation traces

The mutations named by the specification, with every clock read as an explicit
parameter, plus the UI's `switch_category` (the only way
`self.current_category` changes). -/

inductive Op where
  | addTask (text : String) (category : Option String) (priority : String)
      (bold : Option Bool) (nowStr : String) (nowMs : Int)
  | toggleTask (index : Nat) (category : Option String) (now : String)
  | editTask (taskId : Int) (newText : String)
  | toggleTaskBold (taskId : Int)
  | moveTaskToCategory (taskId : Int) (category : String)
  | removeTaskFromCategory (taskId : Int)
  | removeTask (taskId : Int)
  | completeAllTasks (category : Option String) (now : String)
  | addCategory (name : String)
  | editCategory (oldName newName : String)
  | removeCategory (name : String)
  | switchCategory (name : String)
deriving DecidableEq, Repr

def applyOp (s : Store) (op : Op) : Store :=
  match op with
  | .addTask text category priority bold nowStr nowMs =>
      (addTask s text category priority bold nowStr nowMs).1
  | .toggleTask index category now => toggleTask s index category now
  | .editTask taskId newText => (editTask s taskId newText).1
  | .toggleTaskBold taskId => toggleTaskBold s taskId
  | .moveTaskToCategory taskId category => moveTaskToCategory s taskId category
  | .removeTaskFromCategory taskId => removeTaskFromCategory s taskId
  | .removeTask taskId => (removeTask s taskId).1
  | .completeAllTasks category now => completeAllTasks s category now
  | .addCategory name => (addCategory s name).1
  | .editCategory oldName newName => (editCategory s oldName newName).1
  | .removeCategory name => (removeCategory s name).1
  | .switchCategory name => switchCategory s name

/-- Run a mutation sequence from the empty `"All"`-only store. -/
def runOps (ops : List Op) : Store :=
  ops.foldl applyOp initStore

/-- The creation timestamps (`int(time.time()*1000)`) of the `add_task` calls
in a trace; every task id originates here. -/
def addTimes (ops : List Op) : List Int :=
  ops.filterMap (fun op =>
    match op with
    | .addTask _ _ _ _ _ nowMs => some nowMs
    | _ => none)

/-! ## Properties -/

/-- The cross-category invariant of the specification: every task reachable
from a non-`"All"` category is also reachable, with the same id, from
`"All"`. -/
def AllSuperset (s : Store) : Prop :=
  ∀ p ∈ s.index, p.1 ≠ "All" →
    ∀ r ∈ p.2, ∀ t : Task, hfind s.heap r = some t →
      ∃ r' ∈ (ifind s.index "All").getD [], ∃ t' : Task,
        hfind s.heap r' = some t' ∧ t'.id = t.id

/-- No two referenced task objects share an id. -/
def UniqueIds (s : Store) : Prop :=
  ∀ p ∈ s.index, ∀ q ∈ s.index, ∀ r ∈ p.2, ∀ r' ∈ q.2,
    ∀ t t' : Task, hfind s.heap r = some t → hfind s.heap r' = some t' →
      t.id = t'.id → r = r'

/-! ## Concrete stores and traces used by the witnesses and counterexamples -/

/-- An empty application-data directory. -/
def fsEmpty : FS := { tasksFile := none, backupFile := none, categoriesFile := none }

/-- Two `add_task` calls in the same clock millisecond (id 5), the second into
`"Work"`, then `remove_task(5)` from the current category `"All"`. -/
def collisionTrace : List Op :=
  [ .addTask "a" (some "All") "none" none "t" 5,
    .addTask "b" (some "Work") "none" none "t" 5,
    .removeTask 5 ]

def collisionStore : Store := runOps collisionTrace

/-- After the collision trace, a third task is created at the same
millisecond and toggled at position 0 of `"All"`. -/
def retoggleTrace : List Op :=
  collisionTrace ++
  [ .addTask "c" (some "All") "none" none "t" 5,
    .toggleTask 0 (some "All") "NOW" ]

/-- One task only in `"All"` (id 5) and one task in `"Work"` and `"All"` (id 6). -/
def twoCatStore : Store :=
  runOps [ .addTask "a" (some "All") "none" none "t" 5,
           .addTask "b" (some "Work") "none" none "t" 6 ]

/-- Two distinct tasks with identical text and creation minute. -/
def twinTextStore : Store :=
  runOps [ .addTask "a" (some "All") "none" none "T" 5,
           .addTask "a" (some "All") "none" none "T" 6 ]

/-- A category created through `add_category`, then populated. -/
def renameStore : Store :=
  runOps [ .addCategory "Work", .addTask "a" (some "Work") "none" none "t" 5 ]

/-- A task added to a category that is not in the category list
(`add_task` never touches `self.categories`). -/
def strayCatStore : Store :=
  runOps [ .addTask "a" (some "Work") "none" none "t" 5 ]

/-- Two `add_task` calls in the same clock millisecond. -/
def sameMsStore : Store :=
  runOps [ .addTask "a" (some "All") "none" none "t" 5,
           .addTask "b" (some "All") "none" none "t" 5 ]

/-- Two tasks created in the same millisecond (both id 5), the first only in
`"All"`, the second in `"Work"` and `"All"`; the current category is `"All"`. -/
def twinIdStore : Store :=
  runOps [ .addTask "a" (some "All") "none" none "t" 5,
           .addTask "b" (some "Work") "none" none "t" 5 ]

/-- Two tasks with the same creation minute but different texts and ids. -/
def distinctTextStore : Store :=
  runOps [ .addTask "a" (some "All") "none" none "T" 5,
           .addTask "b" (some "All") "none" none "T" 6 ]

/-- A store whose task has a priority outside the schema enumeration
(`add_task` stores the `priority` argument unchecked). -/
def badPriorityStore : Store :=
  runOps [ .addTask "a" (some "All") "urgent" none "t" 5 ]

/-- A file system holding a previously persisted (empty) document. -/
def priorFS : FS :=
  { tasksFile := some (buildDoc initStore), backupFile := none,
    categoriesFile := some ["All"] }


/-- Two tasks created in distinct clock milliseconds, then the first removed;
every id is unique along this trace. -/
def demoTrace : List Op :=
  [ .addTask "a" (some "All") "none" none "t" 5,
    .addTask "b" (some "Work") "none" none "t" 6,
    .removeTask 5 ]

/-- Two tasks in `"All"` created in distinct clock milliseconds. -/
def c7Trace : List Op :=
  [ .addTask "a" (some "All") "none" none "t" 5,
    .addTask "b" (some "All") "none" none "t" 6 ]

/-- One task in `"All"`, one in `"Work"`, distinct clock milliseconds. -/
def c6Trace : List Op :=
  [ .addTask "a" (some "All") "none" none "t" 5,
    .addTask "b" (some "Work") "none" none "t" 6 ]


/-- A category created with `add_category`, a task in it, and a second task in
`"All"`, with distinct creation milliseconds. -/
def c2Trace : List Op :=
  [ .addCategory "Work",
    .addTask "a" (some "Work") "none" none "t" 5,
    .addTask "b" (some "All") "none" none "t" 6 ]


/-- Two tasks created in distinct clock milliseconds 5 and 7. -/
def c9Trace : List Op :=
  [ .addTask "a" (some "All") "none" none "t" 5,
    .addTask "b" (some "All") "none" none "t" 7 ]

/-- The task object created by the first entry of `c6Trace`. -/
def demoTaskA : Task :=
  { text := "a", done := false, created_time := "t", completed_time := none,
    priority := "none", bold := false, id := 5, categories := ["All"] }


/-! ## Well-formedness of a store -/

/-- The id and category-membership skeleton of a heap cell. -/
def skel (o : Option Task) : Option (Int × List String) :=
  o.map (fun t => (t.id, t.categories))

/-- Two heaps with the same addresses whose cells agree on id and
`categories` (they may differ on `done`, `completed_time`, `text`, `bold`,
`priority`). -/
def SkelEq (h h' : Heap) : Prop :=
  h'.map Prod.fst = h.map Prod.fst ∧ ∀ r : Nat, skel (hfind h' r) = skel (hfind h r)

/-- Some referenced task of the store has id `i`. -/
def IdIn (s : Store) (i : Int) : Prop :=
  ∃ p ∈ s.index, ∃ r ∈ p.2, ∃ t : Task, hfind s.heap r = some t ∧ t.id = i

/-- The structural invariant maintained by the mutation operations:
the `"All"` key exists; every referenced address holds a task whose
`categories` contains both the referencing key and `"All"`; every referenced
address also appears in the `"All"` sequence; sequences have no duplicate
addresses; and all addresses are below the allocation counter. -/
structure WF (s : Store) : Prop where
  allKey : (ifind s.index "All").isSome = true
  refValid : ∀ p ∈ s.index, ∀ r ∈ p.2, ∃ t : Task,
    hfind s.heap r = some t ∧ p.1 ∈ t.categories ∧ "All" ∈ t.categories
  inAll : ∀ p ∈ s.index, ∀ r ∈ p.2, r ∈ (ifind s.index "All").getD []
  refsNodup : ∀ p ∈ s.index, p.2.Nodup
  refsBound : ∀ p ∈ s.index, ∀ r ∈ p.2, r < s.nextAddr
  heapBound : ∀ q ∈ s.heap, q.1 < s.nextAddr

/-! ## Basic lemmas about the dict model -/

theorem hfind_hmod (h : Heap) (a b : Nat) (f : Task → Task) :
    hfind (hmod h a f) b = if b = a then (hfind h b).map f else hfind h b := by
  induction h with
  | nil => by_cases hba : b = a <;> simp [hfind, hmod, hba]
  | cons p rest ih =>
    obtain ⟨c, t⟩ := p
    rw [hmod]
    by_cases hca : c = a
    · subst hca
      rw [if_pos rfl]
      by_cases hcb : c = b
      · subst hcb; simp [hfind]
      · simp [hfind, hcb, Ne.symm hcb, ih]
    · rw [if_neg hca]
      by_cases hcb : c = b
      · subst hcb; simp [hfind, hca, Ne.symm hca]
      · simp [hfind, hcb, ih]

theorem ifind_imod (i : Index) (c c' : String) (f : List Nat → List Nat) :
    ifind (imod i c f) c' = if c' = c then (ifind i c').map f else ifind i c' := by
  induction i with
  | nil => by_cases h : c' = c <;> simp [ifind, imod, h]
  | cons p rest ih =>
    obtain ⟨d, rs⟩ := p
    rw [imod]
    by_cases hdc : d = c
    · subst hdc
      rw [if_pos rfl]
      by_cases hdc' : d = c'
      · subst hdc'; simp [ifind]
      · simp [ifind, hdc', Ne.symm hdc', ih]
    · rw [if_neg hdc]
      by_cases hdc' : d = c'
      · subst hdc'; simp [ifind, hdc, Ne.symm hdc]
      · simp [ifind, hdc', ih]

theorem ifind_append (i j : Index) (c : String) :
    ifind (i ++ j) c = (ifind i c).or (ifind j c) := by
  induction i with
  | nil => simp [ifind]
  | cons p rest ih =>
    obtain ⟨d, rs⟩ := p
    by_cases hdc : d = c <;> simp [ifind, hdc, ih]

theorem ifind_iensure (i : Index) (c c' : String) :
    ifind (iensure i c) c' =
      if c' = c then some ((ifind i c).getD []) else ifind i c' := by
  unfold iensure
  cases hic : ifind i c with
  | some rs =>
    by_cases h : c' = c <;> simp [h, hic]
  | none =>
    rw [ifind_append]
    by_cases h : c' = c
    · subst h; simp [hic, ifind]
    · cases hic' : ifind i c' <;>
        simp [h, Ne.symm h, hic', ifind, Option.or]

theorem ifind_foldl_iensure (cats : List String) (i : Index) (c : String) :
    ifind (cats.foldl (fun i c => iensure i c) i) c =
      if c ∈ cats then some ((ifind i c).getD []) else ifind i c := by
  induction cats generalizing i with
  | nil => simp
  | cons c0 rest ih =>
    simp only [List.foldl_cons, ih (iensure i c0), ifind_iensure]
    by_cases h0 : c = c0
    · subst h0
      by_cases hr : c ∈ rest <;> simp [hr, List.mem_cons]
    · by_cases hr : c ∈ rest <;> simp [hr, h0, List.mem_cons]

theorem ensureKeys_heap (s : Store) : (ensureKeys s).heap = s.heap := rfl

theorem ensureKeys_categories (s : Store) : (ensureKeys s).categories = s.categories := rfl

theorem ensureKeys_current (s : Store) : (ensureKeys s).current = s.current := rfl

theorem ifind_ensureKeys (s : Store) (c : String) :
    ifind (ensureKeys s).index c =
      if c ∈ s.categories then some ((ifind s.index c).getD []) else ifind s.index c :=
  ifind_foldl_iensure s.categories s.index c

theorem getD_ifind_ensureKeys (s : Store) (c : String) :
    ((ifind (ensureKeys s).index c).getD []) = (ifind s.index c).getD [] := by
  rw [ifind_ensureKeys]
  by_cases h : c ∈ s.categories <;> simp [h]

/-! ## Counterexamples -/

/-- C1: the claimed invariant fails on the code.  Two `add_task` calls in the
same clock millisecond give both tasks id 5 (`int(time.time()*1000)`); the
first matches `remove_task(5)`, whose fan-out only covers the *first* match's
`categories` list `["All"]`, so the id-5 filter empties `"All"` while the
second task stays in `"Work"`: a task reachable from `"Work"` with no same-id
task in `"All"`. -/
theorem c1_counterexample : ¬ AllSuperset collisionStore := by
  intro h
  obtain ⟨r', hr', _⟩ :=
    h ("Work", [1]) (by decide) (by decide) 1 (by decide) _ rfl
  rw [show (ifind collisionStore.index "All").getD [] = ([] : List Nat) from rfl] at hr'
  exact absurd hr' (List.not_mem_nil r')

/-- C2: save-then-load is not the identity on the index.  `add_task` into a
category that was never put into `self.categories` creates the index key, but
`save_tasks` only serializes keys listed in `self.categories`, and `load_tasks`
only creates sequences for listed categories, so the `"Work"` key is lost by
the round trip. -/
theorem c2_counterexample :
    (valuesAt strayCatStore "Work").map (fun l => l.map Task.id) = some [5] ∧
    valuesAt (loadStore (saveTasks strayCatStore fsEmpty).2).1 "Work" = none :=
  ⟨rfl, rfl⟩

/-- C4: `complete_all_tasks("Work")` completes the id-5 task although its id
occurs neither in `"Work"`'s sequence nor matches any task there: the second
loop of the source completes *every* not-yet-done task of `"All"`. -/
theorem c4_counterexample :
    (valuesAt twoCatStore "Work").map (fun l => l.map Task.id) = some [6] ∧
    (valuesAt twoCatStore "All").map (fun l => l.map (fun t => (t.id, t.done))) =
      some [(5, false), (6, false)] ∧
    (valuesAt (completeAllTasks twoCatStore (some "Work") "NOW") "All").map
        (fun l => l.map (fun t => (t.id, t.done, t.completed_time))) =
      some [(5, true, some "NOW"), (6, true, some "NOW")] :=
  ⟨rfl, rfl, rfl⟩

/-- C5: `toggle_task_bold(5)` and `edit_task(5, ...)` also modify the distinct
task with id 6, because the fan-out matches on `(text, created_time)` and both
tasks share text `"a"` and creation minute `"T"`. -/
theorem c5_counterexample :
    (valuesAt twinTextStore "All").map
        (fun l => l.map (fun t => (t.id, t.text, t.created_time, t.bold))) =
      some [(5, "a", "T", false), (6, "a", "T", false)] ∧
    (valuesAt (toggleTaskBold twinTextStore 5) "All").map
        (fun l => l.map (fun t => (t.id, t.bold))) =
      some [(5, true), (6, true)] ∧
    (valuesAt (editTask twinTextStore 5 "new").1 "All").map
        (fun l => l.map (fun t => (t.id, t.text))) =
      some [(5, "new"), (6, "new")] :=
  ⟨rfl, rfl, rfl⟩

/-- C6: after the collision trace and a fresh same-millisecond task, toggling
position 0 of `"All"` leaves the `"Work"` copy of id 5 with the opposite
`done` and a different `completed_time`: the values are not identical across
the sequences holding id 5. -/
theorem c6_counterexample :
    (valuesAt (runOps retoggleTrace) "All").map
        (fun l => l.map (fun t => (t.id, t.done, t.completed_time))) =
      some [(5, true, some "NOW")] ∧
    (valuesAt (runOps retoggleTrace) "Work").map
        (fun l => l.map (fun t => (t.id, t.done, t.completed_time))) =
      some [(5, false, none)] :=
  ⟨rfl, rfl⟩

/-- C7: `remove_task(5)` is called with an id-5 task present in the current
category `"All"` and returns `True`, yet an id-5 occurrence survives in
`"Work"` (the fan-out only covers the first match's `categories`). -/
theorem c7_counterexample :
    twinIdStore.current = "All" ∧
    (findById twinIdStore.heap ((ifind twinIdStore.index "All").getD []) 5).isSome = true ∧
    (removeTask twinIdStore 5).2 = true ∧
    (valuesAt (removeTask twinIdStore 5).1 "Work").map (fun l => l.map Task.id) =
      some [5] :=
  ⟨rfl, rfl, rfl, rfl⟩

/-- C8: `edit_category("Work", "Job")` returns `True` and renames the entry in
the category list, but the TaskIndex still has the `"Work"` key and no `"Job"`
key: the task does not become reachable under the new name. -/
theorem c8_counterexample :
    (editCategory renameStore "Work" "Job").2 = true ∧
    (editCategory renameStore "Work" "Job").1.categories = ["All", "Job"] ∧
    ifind (editCategory renameStore "Work" "Job").1.index "Job" = none ∧
    (valuesAt (editCategory renameStore "Work" "Job").1 "Work").map
        (fun l => l.map Task.id) = some [5] :=
  ⟨rfl, rfl, rfl, rfl⟩

/-- C9: task ids are exactly the creation clock value `int(time.time()*1000)`,
so two `add_task` calls in the same millisecond produce two tasks with the
same id 5 in the store. -/
theorem c9_id_collision :
    (createTask "x" "t" 5 false).id = 5 ∧
    (valuesAt sameMsStore "All").map (fun l => l.map Task.id) = some [5, 5] :=
  ⟨rfl, rfl⟩

/-- C10: `get_tasks("")` with `""` not a key of the index does *not* insert an
empty sequence for `""`: `category or self.current_category` treats the empty
string as absent and falls back to the current category. -/
theorem c10_counterexample :
    ifind initStore.index "" = none ∧
    getTasks initStore (some "") = (initStore, []) :=
  ⟨rfl, rfl⟩

/-! ## C3: validation failure leaves the live file untouched -/

/-- C3 (confirmed): when schema validation of the proposed document fails,
`save_tasks` returns before writing the temporary file or replacing the live
file, so the persisted `tasks.json` is unchanged (only the backup sidecar may
have been written). -/
theorem c3_validation_failure_preserves_tasks_file (s : Store) (fs : FS)
    (h : validateDoc (buildDoc (ensureKeys s)) = false) :
    (saveTasks s fs).2.tasksFile = fs.tasksFile := by
  cases hfs : fs.tasksFile <;> simp [saveTasks, h, hfs]

/-- Witness for C3 at a concrete store whose task has priority `"urgent"`. -/
theorem c3_validation_failure_preserves_tasks_file_witness :
    validateDoc (buildDoc (ensureKeys badPriorityStore)) = false ∧
    (saveTasks badPriorityStore priorFS).2.tasksFile = priorFS.tasksFile :=
  ⟨rfl, c3_validation_failure_preserves_tasks_file badPriorityStore priorFS rfl⟩

/-! ## C8: edit_category renames the list entry only -/

/-- C8 (amended): for `old ≠ "All"` present in the category list and `new` not
already listed, `edit_category` replaces the first occurrence of `old` by
`new` in the ordered category list and returns `True`, leaving the heap, the
TaskIndex (so tasks stay reachable under `old`, not `new`) and everything else
unchanged; `edit_category("All", x)` returns `False` and changes nothing. -/
theorem c8_amended_edit_category (s : Store) (o n : String)
    (ho : o ≠ "All") (hn : n ∉ s.categories) (hmem : o ∈ s.categories) :
    editCategory s o n = ({ s with categories := replaceFirst s.categories o n }, true) ∧
    ∀ x : String, editCategory s "All" x = (s, false) := by
  constructor
  · simp [editCategory, ho, hn, hmem]
  · intro x
    simp [editCategory]

/-- Witness for C8 at the concrete rename store. -/
theorem c8_amended_edit_category_witness :
    ("Work" ≠ "All" ∧ "Job" ∉ renameStore.categories ∧ "Work" ∈ renameStore.categories) ∧
    editCategory renameStore "Work" "Job" =
      ({ renameStore with categories := replaceFirst renameStore.categories "Work" "Job" }, true) ∧
    editCategory renameStore "All" "Z" = (renameStore, false) :=
  ⟨⟨by decide, by decide, by decide⟩,
   (c8_amended_edit_category renameStore "Work" "Job" (by decide) (by decide) (by decide)).1,
   (c8_amended_edit_category renameStore "Work" "Job" (by decide) (by decide) (by decide)).2 "Z"⟩

/-! ## C10: get_tasks on an unknown key -/

/-- C10 (amended): for every *non-empty* category name `c` that is not a key
of the index, `get_tasks(c)` appends a new key `c` with an empty sequence to
the index, leaves every other component of the store unchanged, and returns
the empty list.  (The empty string is excluded: `category or
self.current_category` silently redirects it to the current category.) -/
theorem c10_amended_get_tasks (s : Store) (c : String) (hne : c ≠ "")
    (hkey : ifind s.index c = none) :
    getTasks s (some c) = ({ s with index := s.index ++ [(c, [])] }, []) := by
  simp [getTasks, resolveCat, hne, hkey]

/-- Witness for C10 at the empty store and the fresh name `"X"`. -/
theorem c10_amended_get_tasks_witness :
    ("X" ≠ "" ∧ ifind initStore.index "X" = none) ∧
    getTasks initStore (some "X") =
      ({ initStore with index := initStore.index ++ [("X", [])] }, []) :=
  ⟨⟨by decide, rfl⟩, c10_amended_get_tasks initStore "X" (by decide) rfl⟩

/-! ## C4: complete_all_tasks -/

/-- One completion pass is a pointwise map on the heap: a task is completed
exactly when its address occurs in the pass list and it was not yet done. -/
theorem hfind_completePass (refs : List Nat) (h : Heap) (now : String) (r : Nat) :
    hfind (completePass h refs now) r =
      (hfind h r).map (fun t =>
        if r ∈ refs ∧ t.done = false
        then { t with done := true, completed_time := some now } else t) := by
  induction refs generalizing h with
  | nil => cases hr : hfind h r <;> simp [completePass, hr]
  | cons r0 rest ih =>
    have hstep : completePass h (r0 :: rest) now =
        completePass
          (match hfind h r0 with
           | some t =>
             if t.done then h
             else hmod h r0 (fun u => { u with done := true, completed_time := some now })
           | none => h) rest now := rfl
    rw [hstep, ih]
    cases h0 : hfind h r0 with
    | none =>
      cases hr : hfind h r with
      | none => simp
      | some t =>
        have hrr0 : r ≠ r0 := fun he => by rw [he, h0] at hr; cases hr
        simp [List.mem_cons, hrr0]
    | some t0 =>
      by_cases hd : t0.done
      · simp only [if_pos hd]
        cases hr : hfind h r with
        | none => simp
        | some t =>
          by_cases hrr0 : r = r0
          · subst hrr0
            rw [h0] at hr; injection hr with hr; subst hr
            simp [List.mem_cons, hd]
          · simp [List.mem_cons, hrr0]
      · simp only [if_neg hd]
        rw [hfind_hmod]
        by_cases hrr0 : r = r0
        · subst hrr0
          rw [if_pos rfl, h0]
          simp [List.mem_cons, hd]
        · rw [if_neg hrr0]
          cases hr : hfind h r with
          | none => simp
          | some t => simp [List.mem_cons, hrr0]

/-- C4 (amended): `complete_all_tasks(C)` for a non-`"All"` category `C` of
the index sets `done` and the single shared timestamp on every not-yet-done
task of `C`'s sequence *and of the whole `"All"` sequence* (not only the tasks
matching ids in `C`); already-done tasks and tasks in neither sequence keep
their fields. -/
theorem c4_amended_complete_all (s : Store) (category : Option String) (now : String)
    (refs ars : List Nat)
    (hcat : ifind s.index (resolveCat category s.current) = some refs)
    (hne : resolveCat category s.current ≠ "All")
    (hall : ifind s.index "All" = some ars) :
    (∀ r t, hfind s.heap r = some t → (r ∈ refs ∨ r ∈ ars) → t.done = false →
        hfind (completeAllTasks s category now).heap r =
          some { t with done := true, completed_time := some now }) ∧
    (∀ r t, hfind s.heap r = some t → t.done = true →
        hfind (completeAllTasks s category now).heap r = some t) ∧
    (∀ r, r ∉ refs → r ∉ ars →
        hfind (completeAllTasks s category now).heap r = hfind s.heap r) := by
  have hheap : (completeAllTasks s category now).heap =
      completePass (completePass s.heap refs now) ars now := by
    simp [completeAllTasks, hcat, hne, hall, ensureKeys]
  refine ⟨?_, ?_, ?_⟩
  · intro r t hr hmem hdone
    rw [hheap, hfind_completePass, hfind_completePass, hr]
    rcases hmem with hm | hm
    · by_cases ha : r ∈ ars <;> simp [hm, ha, hdone]
    · by_cases hrefs : r ∈ refs <;> simp [hrefs, hm, hdone]
  · intro r t hr hdone
    rw [hheap, hfind_completePass, hfind_completePass, hr]
    simp [hdone]
  · intro r h1 h2
    rw [hheap, hfind_completePass, hfind_completePass]
    cases hr : hfind s.heap r <;> simp [h1, h2]

/-- Witness for C4: in the two-category store, completing `"Work"` also
completes the id-5 task that lives only in `"All"`. -/
theorem c4_amended_complete_all_witness :
    (ifind twoCatStore.index (resolveCat (some "Work") twoCatStore.current) = some [1] ∧
     resolveCat (some "Work") twoCatStore.current ≠ "All" ∧
     ifind twoCatStore.index "All" = some [0, 1]) ∧
    hfind (completeAllTasks twoCatStore (some "Work") "NOW").heap 0 =
      some { text := "a", done := true, created_time := "t", completed_time := some "NOW",
             priority := "none", bold := false, id := 5, categories := ["All"] } :=
  ⟨⟨rfl, by decide, rfl⟩,
   (c4_amended_complete_all twoCatStore (some "Work") "NOW" [1] [0, 1]
      rfl (by decide) rfl).1 0
     { text := "a", done := false, created_time := "t", completed_time := none,
       priority := "none", bold := false, id := 5, categories := ["All"] }
     rfl (Or.inr (by decide)) rfl⟩

/-! ## C5: edit_task / toggle_task_bold frame property -/

/-- One category's inner loop of the `edit_task` fan-out does not touch a
task whose `(text, created_time)` does not match. -/
theorem hfind_editInner_frame (rs : List Nat) (h0 : Heap) (oT oC nT : String)
    (r : Nat) (t : Task) (hr : hfind h0 r = some t)
    (hne : ¬(t.text = oT ∧ t.created_time = oC)) :
    hfind (rs.foldl (fun h r =>
      match hfind h r with
      | some u =>
        if u.text = oT ∧ u.created_time = oC
        then hmod h r (fun v => { v with text := nT }) else h
      | none => h) h0) r = some t := by
  induction rs generalizing h0 with
  | nil => exact hr
  | cons r0 rest ih =>
    simp only [List.foldl_cons]
    refine ih _ ?_
    cases h0r0 : hfind h0 r0 with
    | none => exact hr
    | some u =>
      dsimp only
      by_cases hp : u.text = oT ∧ u.created_time = oC
      · rw [if_pos hp, hfind_hmod]
        by_cases hrr0 : r = r0
        · subst hrr0; rw [h0r0] at hr; injection hr with e; subst e
          exact absurd hp hne
        · rw [if_neg hrr0]; exact hr
      · rw [if_neg hp]; exact hr

/-- Tasks whose `(text, created_time)` does not match are untouched by the
`edit_task` fan-out. -/
theorem hfind_editPass_frame (idx : Index) (h0 : Heap) (oT oC nT : String)
    (r : Nat) (t : Task) (hr : hfind h0 r = some t)
    (hne : ¬(t.text = oT ∧ t.created_time = oC)) :
    hfind (editPass h0 idx oT oC nT) r = some t := by
  induction idx generalizing h0 with
  | nil => exact hr
  | cons p rest ih =>
    exact ih _ (hfind_editInner_frame p.2 h0 oT oC nT r t hr hne)

/-- One category's inner loop of the `toggle_task_bold` fan-out does not touch
a task whose `(text, created_time)` does not match. -/
theorem hfind_boldInner_frame (rs : List Nat) (h0 : Heap) (oT oC : String)
    (r : Nat) (t : Task) (hr : hfind h0 r = some t)
    (hne : ¬(t.text = oT ∧ t.created_time = oC)) :
    hfind (rs.foldl (fun h r =>
      match hfind h r with
      | some u =>
        if u.text = oT ∧ u.created_time = oC
        then hmod h r (fun v => { v with bold := !v.bold })
        else h
      | none => h) h0) r = some t := by
  induction rs generalizing h0 with
  | nil => exact hr
  | cons r0 rest ih =>
    simp only [List.foldl_cons]
    refine ih _ ?_
    cases h0r0 : hfind h0 r0 with
    | none => exact hr
    | some u =>
      dsimp only
      by_cases hp : u.text = oT ∧ u.created_time = oC
      · rw [if_pos hp, hfind_hmod]
        by_cases hrr0 : r = r0
        · subst hrr0; rw [h0r0] at hr; injection hr with e; subst e
          exact absurd hp hne
        · rw [if_neg hrr0]; exact hr
      · rw [if_neg hp]; exact hr

/-- Tasks whose `(text, created_time)` does not match are untouched by the
`toggle_task_bold` fan-out. -/
theorem hfind_boldPass_frame (idx : Index) (h0 : Heap) (oT oC : String)
    (r : Nat) (t : Task) (hr : hfind h0 r = some t)
    (hne : ¬(t.text = oT ∧ t.created_time = oC)) :
    hfind (boldPass h0 idx oT oC) r = some t := by
  induction idx generalizing h0 with
  | nil => exact hr
  | cons p rest ih =>
    exact ih _ (hfind_boldInner_frame p.2 h0 oT oC r t hr hne)

/-- C5 (amended): `edit_task(id, ...)` and `toggle_task_bold(id)` modify only
tasks whose `(text, created_time)` pair equals that of the task found under
`id` in the current category; every task whose text or creation minute differs
— in particular any distinct task with a different id and different text or
creation time — is unchanged.  (Equality of id is neither necessary nor
sufficient: see the counterexample.) -/
theorem c5_amended_frame (s : Store) (tid : Int) (newText : String)
    (refs : List Nat) (a : Nat) (t0 : Task)
    (h1 : ifind s.index s.current = some refs)
    (h2 : findById s.heap refs tid = some a)
    (h3 : hfind s.heap a = some t0) :
    ∀ r t, hfind s.heap r = some t →
      ¬(t.text = t0.text ∧ t.created_time = t0.created_time) →
      hfind (editTask s tid newText).1.heap r = some t ∧
      hfind (toggleTaskBold s tid).heap r = some t := by
  intro r t hr hne
  constructor
  · have he : (editTask s tid newText).1.heap =
        editPass s.heap s.index t0.text t0.created_time newText := by
      simp [editTask, h1, h2, h3, ensureKeys]
    rw [he]
    exact hfind_editPass_frame _ _ _ _ _ _ _ hr hne
  · have hb : (toggleTaskBold s tid).heap =
        boldPass s.heap s.index t0.text t0.created_time := by
      simp [toggleTaskBold, h1, h2, h3, ensureKeys]
    rw [hb]
    exact hfind_boldPass_frame _ _ _ _ _ _ hr hne

/-- Witness for C5: the task `"b"` (id 6, different text) is untouched by
editing or bolding task id 5. -/
theorem c5_amended_frame_witness :
    (ifind distinctTextStore.index distinctTextStore.current = some [0, 1] ∧
     findById distinctTextStore.heap [0, 1] 5 = some 0 ∧
     hfind distinctTextStore.heap 0 =
       some { text := "a", done := false, created_time := "T", completed_time := none,
              priority := "none", bold := false, id := 5, categories := ["All"] }) ∧
    (hfind (editTask distinctTextStore 5 "new").1.heap 1 =
       some { text := "b", done := false, created_time := "T", completed_time := none,
              priority := "none", bold := false, id := 6, categories := ["All"] } ∧
     hfind (toggleTaskBold distinctTextStore 5).heap 1 =
       some { text := "b", done := false, created_time := "T", completed_time := none,
              priority := "none", bold := false, id := 6, categories := ["All"] }) :=
  ⟨⟨rfl, rfl, rfl⟩,
   c5_amended_frame distinctTextStore 5 "new" [0, 1] 0
     { text := "a", done := false, created_time := "T", completed_time := none,
       priority := "none", bold := false, id := 5, categories := ["All"] }
     rfl rfl rfl 1
     { text := "b", done := false, created_time := "T", completed_time := none,
       priority := "none", bold := false, id := 6, categories := ["All"] }
     rfl (by simp)⟩

/-! ## Membership and append lemmas -/

theorem hfind_append (h1 h2 : Heap) (r : Nat) :
    hfind (h1 ++ h2) r = (hfind h1 r).or (hfind h2 r) := by
  induction h1 with
  | nil => simp [hfind]
  | cons p rest ih =>
    obtain ⟨b, t⟩ := p
    by_cases hbr : b = r <;> simp [hfind, hbr, ih]

theorem hfind_eq_none_of_forall_ne (h : Heap) (a : Nat) (hne : ∀ q ∈ h, q.1 ≠ a) :
    hfind h a = none := by
  induction h with
  | nil => rfl
  | cons p rest ih =>
    obtain ⟨b, t⟩ := p
    rw [hfind, if_neg (hne (b, t) (List.mem_cons_self _ _))]
    exact ih (fun q hq => hne q (List.mem_cons_of_mem _ hq))

theorem ifind_mem (i : Index) (c : String) (rs : List Nat) (h : ifind i c = some rs) :
    (c, rs) ∈ i := by
  induction i with
  | nil => cases h
  | cons p rest ih =>
    obtain ⟨d, l⟩ := p
    rw [ifind] at h
    by_cases hdc : d = c
    · rw [if_pos hdc] at h
      injection h with h
      exact hdc ▸ h ▸ List.mem_cons_self _ _
    · rw [if_neg hdc] at h
      exact List.mem_cons_of_mem _ (ih h)

theorem mem_imod (i : Index) (c : String) (f : List Nat → List Nat)
    (p' : String × List Nat) (h : p' ∈ imod i c f) :
    ∃ p ∈ i, p' = (if p.1 = c then (p.1, f p.2) else p) := by
  induction i with
  | nil => cases h
  | cons p rest ih =>
    obtain ⟨d, l⟩ := p
    rw [imod] at h
    rcases List.mem_cons.mp h with h | h
    · exact ⟨(d, l), List.mem_cons_self _ _, h⟩
    · obtain ⟨q, hq, he⟩ := ih h
      exact ⟨q, List.mem_cons_of_mem _ hq, he⟩

theorem mem_iensure (i : Index) (c : String) (p : String × List Nat)
    (h : p ∈ iensure i c) : p ∈ i ∨ p = (c, []) := by
  unfold iensure at h
  cases hic : ifind i c with
  | some rs => rw [hic] at h; exact Or.inl h
  | none =>
    rw [hic] at h
    rcases List.mem_append.mp h with h | h
    · exact Or.inl h
    · simp at h
      exact Or.inr (by simp [h])

theorem mem_foldl_iensure (cats : List String) (i : Index) (p : String × List Nat)
    (h : p ∈ cats.foldl (fun i c => iensure i c) i) : p ∈ i ∨ p.2 = [] := by
  induction cats generalizing i with
  | nil => exact Or.inl h
  | cons c rest ih =>
    rcases ih (iensure i c) h with h2 | h2
    · rcases mem_iensure i c p h2 with h3 | h3
      · exact Or.inl h3
      · exact Or.inr (by rw [h3])
    · exact Or.inr h2

/-! ## Skeleton-equality transport -/

theorem skelEq_refl (h : Heap) : SkelEq h h := ⟨rfl, fun _ => rfl⟩

theorem skelEq_trans (h1 h2 h3 : Heap) (a : SkelEq h1 h2) (b : SkelEq h2 h3) :
    SkelEq h1 h3 :=
  ⟨b.1.trans a.1, fun r => (b.2 r).trans (a.2 r)⟩

theorem hmod_map_fst (h : Heap) (a : Nat) (f : Task → Task) :
    (hmod h a f).map Prod.fst = h.map Prod.fst := by
  induction h with
  | nil => rfl
  | cons p rest ih =>
    obtain ⟨b, t⟩ := p
    by_cases hba : b = a <;> simp [hmod, hba, ih]

theorem skelEq_hmod (h : Heap) (a : Nat) (f : Task → Task)
    (hf : ∀ t : Task, (f t).id = t.id ∧ (f t).categories = t.categories) :
    SkelEq h (hmod h a f) := by
  refine ⟨hmod_map_fst h a f, fun r => ?_⟩
  rw [hfind_hmod]
  by_cases hra : r = a
  · rw [if_pos hra]
    cases hr : hfind h r <;> simp [skel, hf]
  · rw [if_neg hra]

theorem skelEq_foldl {α : Type} (step : Heap → α → Heap) (l : List α) (h : Heap)
    (hstep : ∀ h a, SkelEq h (step h a)) : SkelEq h (l.foldl step h) := by
  suffices hgen : ∀ h0, SkelEq h h0 → SkelEq h (l.foldl step h0) from
    hgen h (skelEq_refl h)
  induction l with
  | nil => exact fun h0 hh0 => hh0
  | cons a rest ih =>
    intro h0 hh0
    exact ih (step h0 a) (skelEq_trans _ _ _ hh0 (hstep h0 a))

theorem skelEq_completePass (h : Heap) (refs : List Nat) (now : String) :
    SkelEq h (completePass h refs now) :=
  skelEq_foldl _ refs h (fun h r => by
    cases hr : hfind h r with
    | none => exact skelEq_refl h
    | some t =>
      dsimp only
      by_cases hd : t.done
      · rw [if_pos hd]; exact skelEq_refl h
      · rw [if_neg hd]; exact skelEq_hmod h r _ (fun u => ⟨rfl, rfl⟩))

theorem skelEq_propagateDone (h0 : Heap) (idx : Index) (cats : List String)
    (tid : Int) (newDone : Bool) (newTime : Option String) :
    SkelEq h0 (propagateDone h0 idx cats tid newDone newTime) :=
  skelEq_foldl _ cats h0 (fun h c => by
    cases hc : ifind idx c with
    | none => exact skelEq_refl h
    | some rs =>
      dsimp only
      exact skelEq_foldl _ rs h (fun h r => by
        cases hr : hfind h r with
        | none => exact skelEq_refl h
        | some u =>
          dsimp only
          by_cases hid : u.id = tid
          · rw [if_pos hid]; exact skelEq_hmod h r _ (fun v => ⟨rfl, rfl⟩)
          · rw [if_neg hid]; exact skelEq_refl h))

theorem skelEq_editPass (h0 : Heap) (idx : Index) (oT oC nT : String) :
    SkelEq h0 (editPass h0 idx oT oC nT) :=
  skelEq_foldl _ idx h0 (fun h p =>
    skelEq_foldl _ p.2 h (fun h r => by
      cases hr : hfind h r with
      | none => exact skelEq_refl h
      | some u =>
        dsimp only
        by_cases hp : u.text = oT ∧ u.created_time = oC
        · rw [if_pos hp]; exact skelEq_hmod h r _ (fun v => ⟨rfl, rfl⟩)
        · rw [if_neg hp]; exact skelEq_refl h))

theorem skelEq_boldPass (h0 : Heap) (idx : Index) (oT oC : String) :
    SkelEq h0 (boldPass h0 idx oT oC) :=
  skelEq_foldl _ idx h0 (fun h p =>
    skelEq_foldl _ p.2 h (fun h r => by
      cases hr : hfind h r with
      | none => exact skelEq_refl h
      | some u =>
        dsimp only
        by_cases hp : u.text = oT ∧ u.created_time = oC
        · rw [if_pos hp]; exact skelEq_hmod h r _ (fun v => ⟨rfl, rfl⟩)
        · rw [if_neg hp]; exact skelEq_refl h))

theorem skelEq_some (h h' : Heap) (hsk : SkelEq h h') (r : Nat) (t : Task)
    (hr : hfind h r = some t) :
    ∃ t' : Task, hfind h' r = some t' ∧ t'.id = t.id ∧ t'.categories = t.categories := by
  have hs := hsk.2 r
  rw [hr] at hs
  cases hr' : hfind h' r with
  | none => rw [hr'] at hs; cases hs
  | some t' =>
    rw [hr'] at hs
    simp only [skel, Option.map_some', Option.some.injEq, Prod.mk.injEq] at hs
    exact ⟨t', rfl, hs.1, hs.2⟩

theorem skelEq_some_rev (h h' : Heap) (hsk : SkelEq h h') (r : Nat) (t' : Task)
    (hr' : hfind h' r = some t') :
    ∃ t : Task, hfind h r = some t ∧ t'.id = t.id ∧ t'.categories = t.categories := by
  have hs := hsk.2 r
  rw [hr'] at hs
  cases hr : hfind h r with
  | none => rw [hr] at hs; cases hs
  | some t =>
    rw [hr] at hs
    simp only [skel, Option.map_some', Option.some.injEq, Prod.mk.injEq] at hs
    exact ⟨t, rfl, hs.1, hs.2⟩

/-! ## Invariant transport: ensureKeys and heap-only mutations -/

theorem wf_ensureKeys (s : Store) (h : WF s) : WF (ensureKeys s) := by
  refine ⟨?_, ?_, ?_, ?_, ?_, ?_⟩
  · rw [show (ensureKeys s).index = (ensureKeys s).index from rfl, ifind_ensureKeys]
    by_cases hc : "All" ∈ s.categories
    · simp [hc]
    · simpa [hc] using h.allKey
  · intro p hp r hr
    rcases mem_foldl_iensure s.categories s.index p hp with hp' | hp'
    · exact h.refValid p hp' r hr
    · rw [hp'] at hr; cases hr
  · intro p hp r hr
    rw [getD_ifind_ensureKeys]
    rcases mem_foldl_iensure s.categories s.index p hp with hp' | hp'
    · exact h.inAll p hp' r hr
    · rw [hp'] at hr; cases hr
  · intro p hp
    rcases mem_foldl_iensure s.categories s.index p hp with hp' | hp'
    · exact h.refsNodup p hp'
    · rw [hp']; exact List.nodup_nil
  · intro p hp r hr
    rcases mem_foldl_iensure s.categories s.index p hp with hp' | hp'
    · exact h.refsBound p hp' r hr
    · rw [hp'] at hr; cases hr
  · exact h.heapBound

theorem unique_ensureKeys (s : Store) (h : UniqueIds s) : UniqueIds (ensureKeys s) := by
  intro p hp q hq r hr r' hr' t t' ht ht' hid
  rcases mem_foldl_iensure s.categories s.index p hp with hp' | hp'
  · rcases mem_foldl_iensure s.categories s.index q hq with hq' | hq'
    · exact h p hp' q hq' r hr r' hr' t t' ht ht' hid
    · rw [hq'] at hr'; cases hr'
  · rw [hp'] at hr; cases hr

theorem idIn_ensureKeys (s : Store) (i : Int) (h : IdIn (ensureKeys s) i) : IdIn s i := by
  obtain ⟨p, hp, r, hr, t, ht, hid⟩ := h
  rcases mem_foldl_iensure s.categories s.index p hp with hp' | hp'
  · exact ⟨p, hp', r, hr, t, ht, hid⟩
  · rw [hp'] at hr; cases hr

theorem wf_heapSwap (s : Store) (h' : Heap) (hwf : WF s) (hsk : SkelEq s.heap h') :
    WF { s with heap := h' } := by
  refine ⟨hwf.allKey, ?_, hwf.inAll, hwf.refsNodup, hwf.refsBound, ?_⟩
  · intro p hp r hr
    obtain ⟨t, ht, hc, ha⟩ := hwf.refValid p hp r hr
    obtain ⟨t', ht', _, hcats⟩ := skelEq_some s.heap h' hsk r t ht
    exact ⟨t', ht', hcats ▸ hc, hcats ▸ ha⟩
  · intro q hq
    have : q.1 ∈ h'.map Prod.fst := List.mem_map_of_mem Prod.fst hq
    rw [hsk.1] at this
    obtain ⟨q0, hq0, he⟩ := List.mem_map.mp this
    exact he ▸ hwf.heapBound q0 hq0

theorem unique_heapSwap (s : Store) (h' : Heap) (hu : UniqueIds s) (hsk : SkelEq s.heap h') :
    UniqueIds { s with heap := h' } := by
  intro p hp q hq r hr r' hr' t t' ht ht' hid
  obtain ⟨u, hu1, hid1, _⟩ := skelEq_some_rev s.heap h' hsk r t ht
  obtain ⟨u', hu2, hid2, _⟩ := skelEq_some_rev s.heap h' hsk r' t' ht'
  exact hu p hp q hq r hr r' hr' u u' hu1 hu2 (hid1 ▸ hid2 ▸ hid)

theorem idIn_heapSwap (s : Store) (h' : Heap) (hsk : SkelEq s.heap h') (i : Int)
    (h : IdIn { s with heap := h' } i) : IdIn s i := by
  obtain ⟨p, hp, r, hr, t, ht, hid⟩ := h
  obtain ⟨u, hu1, hid1, _⟩ := skelEq_some_rev s.heap h' hsk r t ht
  exact ⟨p, hp, r, hr, u, hu1, hid1 ▸ hid⟩

/-- Transport of the invariants along an operation that only rewrites
non-structural task fields (and possibly runs the save-path `ensureKeys`). -/
theorem step_heapOnly (s s' : Store) (h' : Heap) (hwf : WF s) (hu : UniqueIds s)
    (hsk : SkelEq s.heap h')
    (hc : s' = { s with heap := h' } ∨ s' = ensureKeys { s with heap := h' }) :
    WF s' ∧ UniqueIds s' ∧ (∀ i, IdIn s' i → IdIn s i) := by
  have hw1 := wf_heapSwap s h' hwf hsk
  have hu1 := unique_heapSwap s h' hu hsk
  rcases hc with rfl | rfl
  · exact ⟨hw1, hu1, fun i hi => idIn_heapSwap s h' hsk i hi⟩
  · exact ⟨wf_ensureKeys _ hw1, unique_ensureKeys _ hu1,
      fun i hi => idIn_heapSwap s h' hsk i (idIn_ensureKeys _ i hi)⟩

/-! ## Shape of the heap-only operations -/

theorem toggleTask_shape (s : Store) (index : Nat) (category : Option String) (now : String) :
    toggleTask s index category now = s ∨
    ∃ h', SkelEq s.heap h' ∧ toggleTask s index category now = ensureKeys { s with heap := h' } := by
  rw [toggleTask]
  cases hcat : ifind s.index (resolveCat category s.current) with
  | none => exact Or.inl rfl
  | some refs =>
    dsimp only
    by_cases hlen : index < refs.length
    · rw [dif_pos hlen]
      cases ha : hfind s.heap (refs.get ⟨index, hlen⟩) with
      | none => exact Or.inl rfl
      | some t =>
        dsimp only
        refine Or.inr ⟨_, ?_, rfl⟩
        exact skelEq_trans s.heap
          (hmod s.heap (refs.get ⟨index, hlen⟩)
            (fun u => { u with
                        done := !t.done,
                        completed_time := (if (!t.done) = true then some now else none) })) _
          (skelEq_hmod _ _ _ (fun u => ⟨rfl, rfl⟩))
          (skelEq_propagateDone _ s.index t.categories t.id _ _)
    · rw [dif_neg hlen]
      exact Or.inl rfl

theorem completeAllTasks_shape (s : Store) (category : Option String) (now : String) :
    completeAllTasks s category now = s ∨
    ∃ h', SkelEq s.heap h' ∧
      (completeAllTasks s category now = { s with heap := h' } ∨
       completeAllTasks s category now = ensureKeys { s with heap := h' }) := by
  rw [completeAllTasks]
  cases hcat : ifind s.index (resolveCat category s.current) with
  | none => exact Or.inl rfl
  | some refs =>
    dsimp only
    by_cases hall : resolveCat category s.current = "All"
    · rw [if_pos hall]
      exact Or.inr ⟨_, skelEq_completePass s.heap refs now, Or.inr rfl⟩
    · rw [if_neg hall]
      cases ha : ifind s.index "All" with
      | none => exact Or.inr ⟨_, skelEq_completePass s.heap refs now, Or.inl rfl⟩
      | some ars =>
        dsimp only
        refine Or.inr ⟨_, ?_, Or.inr rfl⟩
        exact skelEq_trans _ _ _ (skelEq_completePass s.heap refs now)
          (skelEq_completePass _ ars now)

theorem editTask_shape (s : Store) (taskId : Int) (newText : String) :
    (editTask s taskId newText).1 = s ∨
    ∃ h', SkelEq s.heap h' ∧ (editTask s taskId newText).1 = ensureKeys { s with heap := h' } := by
  rw [editTask]
  cases h1 : ifind s.index s.current with
  | none => exact Or.inl rfl
  | some refs =>
    dsimp only
    cases h2 : findById s.heap refs taskId with
    | none => exact Or.inl rfl
    | some a =>
      dsimp only
      cases h3 : hfind s.heap a with
      | none => exact Or.inl rfl
      | some t =>
        exact Or.inr ⟨_, skelEq_editPass s.heap s.index t.text t.created_time newText, rfl⟩

theorem toggleTaskBold_shape (s : Store) (taskId : Int) :
    toggleTaskBold s taskId = s ∨
    ∃ h', SkelEq s.heap h' ∧ toggleTaskBold s taskId = ensureKeys { s with heap := h' } := by
  rw [toggleTaskBold]
  cases h1 : ifind s.index s.current with
  | none => exact Or.inl rfl
  | some refs =>
    dsimp only
    cases h2 : findById s.heap refs taskId with
    | none => exact Or.inl rfl
    | some a =>
      dsimp only
      cases h3 : hfind s.heap a with
      | none => exact Or.inl rfl
      | some t =>
        exact Or.inr ⟨_, skelEq_boldPass s.heap s.index t.text t.created_time, rfl⟩

/-! ## Invariant preservation: structural operations -/

theorem wf_congr (s s' : Store) (hh : s'.heap = s.heap) (hn : s'.nextAddr = s.nextAddr)
    (hi : s'.index = s.index) (h : WF s) : WF s' :=
  ⟨by rw [hi]; exact h.allKey,
   by rw [hi, hh]; exact h.refValid,
   by rw [hi]; exact h.inAll,
   by rw [hi]; exact h.refsNodup,
   by rw [hi, hn]; exact h.refsBound,
   by rw [hh, hn]; exact h.heapBound⟩

theorem unique_congr (s s' : Store) (hh : s'.heap = s.heap) (hi : s'.index = s.index)
    (h : UniqueIds s) : UniqueIds s' := by
  intro p hp q hq r hr r' hr' t t' ht ht' hid
  rw [hi] at hp hq
  rw [hh] at ht ht'
  exact h p hp q hq r hr r' hr' t t' ht ht' hid

theorem idIn_congr (s s' : Store) (hh : s'.heap = s.heap) (hi : s'.index = s.index)
    (i : Int) (h : IdIn s' i) : IdIn s i := by
  obtain ⟨p, hp, r, hr, t, ht, hid⟩ := h
  rw [hi] at hp
  rw [hh] at ht
  exact ⟨p, hp, r, hr, t, ht, hid⟩

/-- Core invariant-preservation argument for allocating a fresh task `t2` at
address `s.nextAddr` and referencing it from an updated index `idx'`. -/
theorem step_addCore (s : Store) (t2 : Task) (idx' : Index)
    (hwf : WF s) (hu : UniqueIds s) (hfresh : ¬ IdIn s t2.id)
    (hmem : ∀ p' ∈ idx', ∀ r ∈ p'.2,
        (∃ q ∈ s.index, q.1 = p'.1 ∧ r ∈ q.2) ∨ (r = s.nextAddr ∧ p'.1 ∈ t2.categories))
    (hnodup : ∀ p' ∈ idx', p'.2.Nodup)
    (hallmem : "All" ∈ t2.categories)
    (hAll : ifind idx' "All" = some ((ifind s.index "All").getD [] ++ [s.nextAddr])) :
    WF { s with
         heap := s.heap ++ [(s.nextAddr, t2)], nextAddr := s.nextAddr + 1,
         index := idx' } ∧
    UniqueIds { s with
                heap := s.heap ++ [(s.nextAddr, t2)], nextAddr := s.nextAddr + 1,
                index := idx' } ∧
    (∀ i, IdIn { s with
                 heap := s.heap ++ [(s.nextAddr, t2)], nextAddr := s.nextAddr + 1,
                 index := idx' } i → IdIn s i ∨ i = t2.id) := by
  have hAnone : hfind s.heap s.nextAddr = none :=
    hfind_eq_none_of_forall_ne s.heap s.nextAddr
      (fun q hq => Nat.ne_of_lt (hwf.heapBound q hq))
  have hnew : hfind (s.heap ++ [(s.nextAddr, t2)]) s.nextAddr = some t2 := by
    rw [hfind_append, hAnone]
    simp [hfind]
  have hold : ∀ r t, hfind s.heap r = some t → hfind (s.heap ++ [(s.nextAddr, t2)]) r = some t := by
    intro r t hr
    rw [hfind_append, hr]
    rfl
  have hold_rev : ∀ r t, hfind (s.heap ++ [(s.nextAddr, t2)]) r = some t →
      (hfind s.heap r = some t ∨ (r = s.nextAddr ∧ t = t2)) := by
    intro r t hr
    rw [hfind_append] at hr
    cases hsr : hfind s.heap r with
    | some u => rw [hsr] at hr; exact Or.inl hr
    | none =>
      rw [hsr] at hr
      rw [show (Option.none.or (hfind [(s.nextAddr, t2)] r)) = hfind [(s.nextAddr, t2)] r from rfl] at hr
      rw [hfind] at hr
      by_cases hrn : s.nextAddr = r
      · rw [if_pos hrn] at hr
        injection hr with hr
        exact Or.inr ⟨hrn.symm, hr.symm⟩
      · rw [if_neg hrn] at hr
        cases hr
  -- the task found at an old reference is the old task
  have hold_ref : ∀ q ∈ s.index, ∀ r ∈ q.2, ∀ t,
      hfind (s.heap ++ [(s.nextAddr, t2)]) r = some t → hfind s.heap r = some t := by
    intro q hq r hr t ht
    rcases hold_rev r t ht with h | ⟨hrn, _⟩
    · exact h
    · exact absurd (hrn ▸ hwf.refsBound q hq r hr) (Nat.lt_irrefl s.nextAddr)
  refine ⟨⟨?_, ?_, ?_, ?_, ?_, ?_⟩, ?_, ?_⟩
  · rw [show ({ s with
        heap := s.heap ++ [(s.nextAddr, t2)], nextAddr := s.nextAddr + 1,
        index := idx' } : Store).index = idx' from rfl, hAll]
    rfl
  · intro p hp r hr
    rcases hmem p hp r hr with ⟨q, hq, hk, hrq⟩ | ⟨hrn, hcat⟩
    · obtain ⟨t, ht, hc, ha⟩ := hwf.refValid q hq r hrq
      exact ⟨t, hold r t ht, hk ▸ hc, ha⟩
    · exact ⟨t2, hrn ▸ hnew, hcat, hallmem⟩
  · intro p hp r hr
    rw [show ({ s with
        heap := s.heap ++ [(s.nextAddr, t2)], nextAddr := s.nextAddr + 1,
        index := idx' } : Store).index = idx' from rfl, hAll]
    rcases hmem p hp r hr with ⟨q, hq, hk, hrq⟩ | ⟨hrn, _⟩
    · exact List.mem_append_left _ (hwf.inAll q hq r hrq)
    · rw [hrn]
      exact List.mem_append_right _ (List.mem_singleton_self _)
  · exact hnodup
  · intro p hp r hr
    rcases hmem p hp r hr with ⟨q, hq, _, hrq⟩ | ⟨hrn, _⟩
    · exact Nat.lt_succ_of_lt (hwf.refsBound q hq r hrq)
    · rw [hrn]; exact Nat.lt_succ_self _
  · intro q hq
    rcases List.mem_append.mp hq with h | h
    · exact Nat.lt_succ_of_lt (hwf.heapBound q h)
    · rw [List.mem_singleton.mp h]
      exact Nat.lt_succ_self _
  · intro p hp q hq r hr r' hr' t t' ht ht' hid
    rcases hmem p hp r hr with ⟨qp, hqp, _, hrp⟩ | ⟨hrn, _⟩ <;>
      rcases hmem q hq r' hr' with ⟨qq, hqq, _, hrq⟩ | ⟨hrn', _⟩
    · exact hu qp hqp qq hqq r hrp r' hrq t t'
        (hold_ref qp hqp r hrp t ht) (hold_ref qq hqq r' hrq t' ht') hid
    · exfalso
      have ht0 := hold_ref qp hqp r hrp t ht
      rw [hrn'] at ht'
      have ht2' : t' = t2 := by
        rw [hnew] at ht'
        injection ht' with e
        exact e.symm
      exact hfresh ⟨qp, hqp, r, hrp, t, ht0, by rw [hid, ht2']⟩
    · exfalso
      have ht0 := hold_ref qq hqq r' hrq t' ht'
      rw [hrn] at ht
      have ht2 : t = t2 := by
        rw [hnew] at ht
        injection ht with e
        exact e.symm
      exact hfresh ⟨qq, hqq, r', hrq, t', ht0, by rw [← hid, ht2]⟩
    · rw [hrn, hrn']
  · intro i hi
    obtain ⟨p, hp, r, hr, t, ht, hid⟩ := hi
    rcases hmem p hp r hr with ⟨qp, hqp, _, hrp⟩ | ⟨hrn, _⟩
    · exact Or.inl ⟨qp, hqp, r, hrp, t, hold_ref qp hqp r hrp t ht, hid⟩
    · right
      rw [hrn] at ht
      rw [hnew] at ht
      injection ht with e
      rw [← hid, e]

theorem mem_imod_append (i : Index) (c : String) (a : Nat) (p' : String × List Nat)
    (hp' : p' ∈ imod i c (fun rs => rs ++ [a])) (r : Nat) (hr : r ∈ p'.2) :
    (∃ q ∈ i, q.1 = p'.1 ∧ r ∈ q.2) ∨ (r = a ∧ p'.1 = c) := by
  obtain ⟨q, hq, he⟩ := mem_imod i c _ p' hp'
  by_cases hqc : q.1 = c
  · rw [if_pos hqc] at he
    rw [he] at hr ⊢
    rcases List.mem_append.mp hr with h | h
    · exact Or.inl ⟨q, hq, rfl, h⟩
    · exact Or.inr ⟨List.mem_singleton.mp h, hqc⟩
  · rw [if_neg hqc] at he
    rw [he] at hr ⊢
    exact Or.inl ⟨q, hq, rfl, hr⟩

theorem addTask_index_mem1 (i : Index) (cat : String) (a : Nat) (p' : String × List Nat)
    (hp' : p' ∈ imod (iensure i cat) cat (fun rs => rs ++ [a])) (r : Nat) (hr : r ∈ p'.2) :
    (∃ q ∈ i, q.1 = p'.1 ∧ r ∈ q.2) ∨ (r = a ∧ p'.1 = cat) := by
  rcases mem_imod_append _ _ _ p' hp' r hr with ⟨q, hq, hk, hrq⟩ | h
  · rcases mem_iensure i cat q hq with hqi | hqe
    · exact Or.inl ⟨q, hqi, hk, hrq⟩
    · rw [hqe] at hrq; cases hrq
  · exact Or.inr h

theorem addTask_index_mem2 (i : Index) (cat : String) (a : Nat) (p' : String × List Nat)
    (hp' : p' ∈ imod (imod (iensure i cat) cat (fun rs => rs ++ [a])) "All"
             (fun rs => rs ++ [a])) (r : Nat) (hr : r ∈ p'.2) :
    (∃ q ∈ i, q.1 = p'.1 ∧ r ∈ q.2) ∨ (r = a ∧ (p'.1 = cat ∨ p'.1 = "All")) := by
  rcases mem_imod_append _ _ _ p' hp' r hr with ⟨q', hq', hk, hrq⟩ | h
  · rcases addTask_index_mem1 i cat a q' hq' r hrq with ⟨q, hq, hk2, hrq2⟩ | h2
    · exact Or.inl ⟨q, hq, hk2.trans hk, hrq2⟩
    · exact Or.inr ⟨h2.1, Or.inl (h2.2 ▸ hk ▸ rfl)⟩
  · exact Or.inr ⟨h.1, Or.inr h.2⟩

theorem addTask_nodup1 (i : Index) (cat : String) (a : Nat)
    (hnd : ∀ q ∈ i, (q.2 : List Nat).Nodup) (hfr : ∀ q ∈ i, q.1 = cat → a ∉ q.2) :
    ∀ p' ∈ imod (iensure i cat) cat (fun rs => rs ++ [a]), (p'.2 : List Nat).Nodup := by
  intro p' hp'
  obtain ⟨q, hq, he⟩ := mem_imod _ _ _ p' hp'
  rcases mem_iensure i cat q hq with hqi | hqe
  · by_cases hqc : q.1 = cat
    · rw [if_pos hqc] at he
      rw [he]
      refine List.Nodup.append (hnd q hqi) (List.nodup_singleton a) ?_
      simp only [List.disjoint_singleton]
      exact hfr q hqi hqc
    · rw [if_neg hqc] at he
      rw [he]
      exact hnd q hqi
  · rw [hqe] at he
    simp only [if_pos rfl] at he
    rw [he]
    exact List.nodup_singleton a

theorem addTask_nodup2 (i : Index) (cat : String) (a : Nat) (hcat : cat ≠ "All")
    (hnd : ∀ q ∈ i, (q.2 : List Nat).Nodup)
    (hfr : ∀ q ∈ i, q.1 = cat → a ∉ q.2) (hfrA : ∀ q ∈ i, q.1 = "All" → a ∉ q.2) :
    ∀ p' ∈ imod (imod (iensure i cat) cat (fun rs => rs ++ [a])) "All"
             (fun rs => rs ++ [a]), (p'.2 : List Nat).Nodup := by
  intro p' hp'
  obtain ⟨q', hq', he⟩ := mem_imod _ _ _ p' hp'
  by_cases hk : q'.1 = "All"
  · rw [if_pos hk] at he
    rw [he]
    obtain ⟨q, hq, he2⟩ := mem_imod _ _ _ q' hq'
    rcases mem_iensure i cat q hq with hqi | hqe
    · by_cases hqc : q.1 = cat
      · rw [if_pos hqc] at he2
        rw [he2] at hk
        exact absurd (hqc ▸ hk : cat = "All") hcat
      · rw [if_neg hqc] at he2
        rw [he2]
        refine List.Nodup.append (hnd q hqi) (List.nodup_singleton a) ?_
        simp only [List.disjoint_singleton]
        exact hfrA q hqi (he2 ▸ hk)
    · rw [hqe] at he2
      simp only [if_pos rfl] at he2
      rw [he2] at hk
      exact absurd hk hcat
  · rw [if_neg hk] at he
    rw [he]
    exact addTask_nodup1 i cat a hnd hfr q' hq'

theorem addTask_ifind1 (i : Index) (cat : String) (a : Nat) (c' : String) :
    ifind (imod (iensure i cat) cat (fun rs => rs ++ [a])) c' =
      if c' = cat then some ((ifind i cat).getD [] ++ [a]) else ifind i c' := by
  rw [ifind_imod]
  by_cases hc : c' = cat
  · rw [if_pos hc, if_pos hc, ifind_iensure, if_pos hc]
    subst hc
    simp
  · rw [if_neg hc, if_neg hc, ifind_iensure, if_neg hc]

theorem addTask_eq_all (s : Store) (text : String) (category : Option String)
    (priority : String) (bold : Option Bool) (nowStr : String) (nowMs : Int)
    (htext : ¬(text = "" ∨ text = "Add task here"))
    (hcA : resolveCat category s.current = "All") :
    addTask s text category priority bold nowStr nowMs =
      (ensureKeys { s with
         heap := s.heap ++ [(s.nextAddr,
           { text := text, done := false, created_time := nowStr, completed_time := none,
             priority := priority, bold := bold.getD s.defaultBold, id := nowMs,
             categories := ["All"] })],
         nextAddr := s.nextAddr + 1,
         index := imod (iensure s.index "All") "All" (fun rs => rs ++ [s.nextAddr]) },
       true) := by
  rw [addTask, if_neg htext]
  simp only [hcA, createTask]
  simp

theorem addTask_eq_other (s : Store) (text : String) (category : Option String)
    (priority : String) (bold : Option Bool) (nowStr : String) (nowMs : Int)
    (htext : ¬(text = "" ∨ text = "Add task here"))
    (hcA : resolveCat category s.current ≠ "All")
    (oldAll : List Nat) (hall : ifind s.index "All" = some oldAll) :
    addTask s text category priority bold nowStr nowMs =
      (ensureKeys { s with
         heap := s.heap ++ [(s.nextAddr,
           { text := text, done := false, created_time := nowStr, completed_time := none,
             priority := priority, bold := bold.getD s.defaultBold, id := nowMs,
             categories := ["All", resolveCat category s.current] })],
         nextAddr := s.nextAddr + 1,
         index := imod (imod (iensure s.index (resolveCat category s.current))
                        (resolveCat category s.current) (fun rs => rs ++ [s.nextAddr]))
                    "All" (fun rs => rs ++ [s.nextAddr]) },
       true) := by
  have h1 : ifind (imod (iensure s.index (resolveCat category s.current))
      (resolveCat category s.current) (fun rs => rs ++ [s.nextAddr])) "All" = some oldAll := by
    rw [addTask_ifind1, if_neg (fun he => hcA he.symm), hall]
  rw [addTask, if_neg htext]
  simp only [createTask]
  simp only [hcA, if_false, ite_false, h1]
  simp [hcA]

theorem step_addTask (s : Store) (text : String) (category : Option String)
    (priority : String) (bold : Option Bool) (nowStr : String) (nowMs : Int)
    (hwf : WF s) (hu : UniqueIds s) (hfresh : ¬ IdIn s nowMs) :
    WF (addTask s text category priority bold nowStr nowMs).1 ∧
    UniqueIds (addTask s text category priority bold nowStr nowMs).1 ∧
    (∀ i, IdIn (addTask s text category priority bold nowStr nowMs).1 i →
        IdIn s i ∨ i = nowMs) := by
  have hfr : ∀ q ∈ s.index, s.nextAddr ∉ q.2 :=
    fun q hq hmem => Nat.lt_irrefl _ (hwf.refsBound q hq _ hmem)
  by_cases htext : text = "" ∨ text = "Add task here"
  · rw [addTask, if_pos htext]
    exact ⟨hwf, hu, fun i hi => Or.inl hi⟩
  · by_cases hcA : resolveCat category s.current = "All"
    · rw [addTask_eq_all s text category priority bold nowStr nowMs htext hcA]
      have hcore := step_addCore s
        { text := text, done := false, created_time := nowStr, completed_time := none,
          priority := priority, bold := bold.getD s.defaultBold, id := nowMs,
          categories := ["All"] }
        (imod (iensure s.index "All") "All" (fun rs => rs ++ [s.nextAddr]))
        hwf hu hfresh
        (fun p' hp' r hr => by
          rcases addTask_index_mem1 s.index "All" s.nextAddr p' hp' r hr with h | ⟨h1, h2⟩
          · exact Or.inl h
          · exact Or.inr ⟨h1, by rw [h2]; exact List.mem_singleton_self _⟩)
        (addTask_nodup1 s.index "All" s.nextAddr hwf.refsNodup
          (fun q hq _ => hfr q hq))
        (List.mem_singleton_self _)
        (by rw [addTask_ifind1, if_pos rfl])
      exact ⟨wf_ensureKeys _ hcore.1, unique_ensureKeys _ hcore.2.1,
        fun i hi => hcore.2.2 i (idIn_ensureKeys _ i hi)⟩
    · obtain ⟨oldAll, hall⟩ := Option.isSome_iff_exists.mp hwf.allKey
      rw [addTask_eq_other s text category priority bold nowStr nowMs htext hcA oldAll hall]
      have hcore := step_addCore s
        { text := text, done := false, created_time := nowStr, completed_time := none,
          priority := priority, bold := bold.getD s.defaultBold, id := nowMs,
          categories := ["All", resolveCat category s.current] }
        (imod (imod (iensure s.index (resolveCat category s.current))
            (resolveCat category s.current) (fun rs => rs ++ [s.nextAddr]))
          "All" (fun rs => rs ++ [s.nextAddr]))
        hwf hu hfresh
        (fun p' hp' r hr => by
          rcases addTask_index_mem2 s.index (resolveCat category s.current) s.nextAddr
              p' hp' r hr with h | ⟨h1, h2⟩
          · exact Or.inl h
          · refine Or.inr ⟨h1, ?_⟩
            rcases h2 with h2 | h2 <;> rw [h2] <;> simp)
        (addTask_nodup2 s.index (resolveCat category s.current) s.nextAddr hcA
          hwf.refsNodup (fun q hq _ => hfr q hq) (fun q hq _ => hfr q hq))
        (by simp)
        (by
          rw [ifind_imod, if_pos rfl, addTask_ifind1,
            if_neg (fun he => hcA he.symm), hall]
          rfl)
      exact ⟨wf_ensureKeys _ hcore.1, unique_ensureKeys _ hcore.2.1,
        fun i hi => hcore.2.2 i (idIn_ensureKeys _ i hi)⟩

theorem step_addCategory (s : Store) (name : String) (hwf : WF s) (hu : UniqueIds s) :
    WF (addCategory s name).1 ∧ UniqueIds (addCategory s name).1 ∧
    (∀ i, IdIn (addCategory s name).1 i → IdIn s i) := by
  rw [addCategory]
  by_cases h : name ≠ "" ∧ name ∉ s.categories
  · rw [if_pos h]
    exact ⟨wf_congr s _ rfl rfl rfl hwf, unique_congr s _ rfl rfl hu,
      fun i => idIn_congr s _ rfl rfl i⟩
  · rw [if_neg h]
    exact ⟨hwf, hu, fun i hi => hi⟩

theorem step_editCategory (s : Store) (o n : String) (hwf : WF s) (hu : UniqueIds s) :
    WF (editCategory s o n).1 ∧ UniqueIds (editCategory s o n).1 ∧
    (∀ i, IdIn (editCategory s o n).1 i → IdIn s i) := by
  rw [editCategory]
  by_cases h1 : o = "All" ∨ n ∈ s.categories
  · rw [if_pos h1]
    exact ⟨hwf, hu, fun i hi => hi⟩
  · rw [if_neg h1]
    by_cases h2 : o ∈ s.categories
    · rw [if_pos h2]
      exact ⟨wf_congr s _ rfl rfl rfl hwf, unique_congr s _ rfl rfl hu,
        fun i => idIn_congr s _ rfl rfl i⟩
    · rw [if_neg h2]
      exact ⟨hwf, hu, fun i hi => hi⟩

theorem step_switchCategory (s : Store) (name : String) (hwf : WF s) (hu : UniqueIds s) :
    WF (switchCategory s name) ∧ UniqueIds (switchCategory s name) ∧
    (∀ i, IdIn (switchCategory s name) i → IdIn s i) := by
  rw [switchCategory]
  cases h : ifind s.index name with
  | some rs =>
    exact ⟨wf_congr s _ rfl rfl rfl hwf, unique_congr s _ rfl rfl hu,
      fun i => idIn_congr s _ rfl rfl i⟩
  | none => exact ⟨hwf, hu, fun i hi => hi⟩

theorem step_toggleTask (s : Store) (index : Nat) (category : Option String) (now : String)
    (hwf : WF s) (hu : UniqueIds s) :
    WF (toggleTask s index category now) ∧ UniqueIds (toggleTask s index category now) ∧
    (∀ i, IdIn (toggleTask s index category now) i → IdIn s i) := by
  rcases toggleTask_shape s index category now with h | ⟨h', hsk, h⟩
  · rw [h]; exact ⟨hwf, hu, fun i hi => hi⟩
  · rw [h]; exact step_heapOnly s _ h' hwf hu hsk (Or.inr rfl)

theorem step_completeAllTasks (s : Store) (category : Option String) (now : String)
    (hwf : WF s) (hu : UniqueIds s) :
    WF (completeAllTasks s category now) ∧ UniqueIds (completeAllTasks s category now) ∧
    (∀ i, IdIn (completeAllTasks s category now) i → IdIn s i) := by
  rcases completeAllTasks_shape s category now with h | ⟨h', hsk, h | h⟩
  · rw [h]; exact ⟨hwf, hu, fun i hi => hi⟩
  · rw [h]; exact step_heapOnly s _ h' hwf hu hsk (Or.inl rfl)
  · rw [h]; exact step_heapOnly s _ h' hwf hu hsk (Or.inr rfl)

theorem step_editTask (s : Store) (taskId : Int) (newText : String)
    (hwf : WF s) (hu : UniqueIds s) :
    WF (editTask s taskId newText).1 ∧ UniqueIds (editTask s taskId newText).1 ∧
    (∀ i, IdIn (editTask s taskId newText).1 i → IdIn s i) := by
  rcases editTask_shape s taskId newText with h | ⟨h', hsk, h⟩
  · rw [h]; exact ⟨hwf, hu, fun i hi => hi⟩
  · rw [h]; exact step_heapOnly s _ h' hwf hu hsk (Or.inr rfl)

theorem step_toggleTaskBold (s : Store) (taskId : Int) (hwf : WF s) (hu : UniqueIds s) :
    WF (toggleTaskBold s taskId) ∧ UniqueIds (toggleTaskBold s taskId) ∧
    (∀ i, IdIn (toggleTaskBold s taskId) i → IdIn s i) := by
  rcases toggleTaskBold_shape s taskId with h | ⟨h', hsk, h⟩
  · rw [h]; exact ⟨hwf, hu, fun i hi => hi⟩
  · rw [h]; exact step_heapOnly s _ h' hwf hu hsk (Or.inr rfl)

/-! ## removeTaskFromCategory -/

theorem popFirstById_spec (h : Heap) (refs : List Nat) (tid : Int) (a : Nat)
    (refs' : List Nat) (hp : popFirstById h refs tid = some (a, refs')) :
    a ∈ refs ∧ (∀ r ∈ refs', r ∈ refs) ∧
    (∃ t : Task, hfind h a = some t ∧ t.id = tid) ∧
    (∀ r ∈ refs, r ≠ a → r ∈ refs') := by
  induction refs generalizing refs' with
  | nil => cases hp
  | cons r0 rest ih =>
    rw [popFirstById] at hp
    cases h0 : hfind h r0 with
    | some t0 =>
      rw [h0] at hp
      dsimp only at hp
      by_cases hid : t0.id = tid
      · rw [if_pos hid] at hp
        injection hp with hp
        injection hp with hp1 hp2
        subst hp1; subst hp2
        refine ⟨List.mem_cons_self _ _, fun r hr => List.mem_cons_of_mem _ hr,
          ⟨t0, h0, hid⟩, ?_⟩
        intro r hr hne
        rcases List.mem_cons.mp hr with h | h
        · exact absurd h hne
        · exact h
      · rw [if_neg hid] at hp
        cases hrec : popFirstById h rest tid with
        | none => rw [hrec] at hp; cases hp
        | some pr =>
          rw [hrec] at hp
          obtain ⟨a0, l0⟩ := pr
          injection hp with hp
          injection hp with hp1 hp2
          subst hp1
          obtain ⟨hmem, hsub, hex, hkeep⟩ := ih l0 hrec
          subst hp2
          refine ⟨List.mem_cons_of_mem _ hmem, ?_, hex, ?_⟩
          · intro r hr
            rcases List.mem_cons.mp hr with h | h
            · exact h ▸ List.mem_cons_self _ _
            · exact List.mem_cons_of_mem _ (hsub r h)
          · intro r hr hne
            rcases List.mem_cons.mp hr with h | h
            · exact h ▸ List.mem_cons_self _ _
            · exact List.mem_cons_of_mem _ (hkeep r h hne)
    | none =>
      rw [h0] at hp
      dsimp only at hp
      cases hrec : popFirstById h rest tid with
      | none => rw [hrec] at hp; cases hp
      | some pr =>
        rw [hrec] at hp
        obtain ⟨a0, l0⟩ := pr
        injection hp with hp
        injection hp with hp1 hp2
        subst hp1
        obtain ⟨hmem, hsub, hex, hkeep⟩ := ih l0 hrec
        subst hp2
        refine ⟨List.mem_cons_of_mem _ hmem, ?_, hex, ?_⟩
        · intro r hr
          rcases List.mem_cons.mp hr with h | h
          · exact h ▸ List.mem_cons_self _ _
          · exact List.mem_cons_of_mem _ (hsub r h)
        · intro r hr hne
          rcases List.mem_cons.mp hr with h | h
          · exact h ▸ List.mem_cons_self _ _
          · exact List.mem_cons_of_mem _ (hkeep r h hne)

theorem popFirstById_sublist (h : Heap) (refs : List Nat) (tid : Int) (a : Nat)
    (refs' : List Nat) (hp : popFirstById h refs tid = some (a, refs')) :
    List.Sublist refs' refs := by
  induction refs generalizing refs' with
  | nil => cases hp
  | cons r0 rest ih =>
    rw [popFirstById] at hp
    cases h0 : hfind h r0 with
    | some t0 =>
      rw [h0] at hp
      dsimp only at hp
      by_cases hid : t0.id = tid
      · rw [if_pos hid] at hp
        injection hp with hp
        injection hp with hp1 hp2
        subst hp2
        exact List.sublist_cons_self _ _
      · rw [if_neg hid] at hp
        cases hrec : popFirstById h rest tid with
        | none => rw [hrec] at hp; cases hp
        | some pr =>
          rw [hrec] at hp
          obtain ⟨a0, l0⟩ := pr
          injection hp with hp
          injection hp with hp1 hp2
          subst hp1; subst hp2
          exact List.Sublist.cons₂ r0 (ih l0 hrec)
    | none =>
      rw [h0] at hp
      dsimp only at hp
      cases hrec : popFirstById h rest tid with
      | none => rw [hrec] at hp; cases hp
      | some pr =>
        rw [hrec] at hp
        obtain ⟨a0, l0⟩ := pr
        injection hp with hp
        injection hp with hp1 hp2
        subst hp1; subst hp2
        exact List.Sublist.cons₂ r0 (ih l0 hrec)

theorem popFirstById_not_mem (h : Heap) (refs : List Nat) (tid : Int) (a : Nat)
    (refs' : List Nat) (hp : popFirstById h refs tid = some (a, refs'))
    (hnd : refs.Nodup) : a ∉ refs' := by
  induction refs generalizing refs' with
  | nil => cases hp
  | cons r0 rest ih =>
    rw [popFirstById] at hp
    have hnd0 : r0 ∉ rest := (List.nodup_cons.mp hnd).1
    have hndr : rest.Nodup := (List.nodup_cons.mp hnd).2
    cases h0 : hfind h r0 with
    | some t0 =>
      rw [h0] at hp
      dsimp only at hp
      by_cases hid : t0.id = tid
      · rw [if_pos hid] at hp
        injection hp with hp
        injection hp with hp1 hp2
        subst hp1; subst hp2
        exact hnd0
      · rw [if_neg hid] at hp
        cases hrec : popFirstById h rest tid with
        | none => rw [hrec] at hp; cases hp
        | some pr =>
          rw [hrec] at hp
          obtain ⟨a0, l0⟩ := pr
          injection hp with hp
          injection hp with hp1 hp2
          subst hp1; subst hp2
          intro hmem
          rcases List.mem_cons.mp hmem with he | hmem2
          · obtain ⟨hmem0, _, _, _⟩ := popFirstById_spec h rest tid a0 l0 hrec
            exact hnd0 (he ▸ hmem0)
          · exact ih l0 hrec hndr hmem2
    | none =>
      rw [h0] at hp
      dsimp only at hp
      cases hrec : popFirstById h rest tid with
      | none => rw [hrec] at hp; cases hp
      | some pr =>
        rw [hrec] at hp
        obtain ⟨a0, l0⟩ := pr
        injection hp with hp
        injection hp with hp1 hp2
        subst hp1; subst hp2
        intro hmem
        rcases List.mem_cons.mp hmem with he | hmem2
        · obtain ⟨hmem0, _, _, _⟩ := popFirstById_spec h rest tid a0 l0 hrec
          exact hnd0 (he ▸ hmem0)
        · exact ih l0 hrec hndr hmem2

theorem step_removeTaskFromCategory (s : Store) (tid : Int)
    (hwf : WF s) (hu : UniqueIds s) :
    WF (removeTaskFromCategory s tid) ∧ UniqueIds (removeTaskFromCategory s tid) ∧
    (∀ i, IdIn (removeTaskFromCategory s tid) i → IdIn s i) := by
  rw [removeTaskFromCategory]
  by_cases hcur : s.current = "All"
  · rw [if_pos hcur]
    exact ⟨hwf, hu, fun i hi => hi⟩
  · rw [if_neg hcur]
    cases hc : ifind s.index s.current with
    | none => exact ⟨hwf, hu, fun i hi => hi⟩
    | some refs =>
      dsimp only
      cases hpop : popFirstById s.heap refs tid with
      | none =>
        exact ⟨wf_ensureKeys s hwf, unique_ensureKeys s hu,
          fun i hi => idIn_ensureKeys s i hi⟩
      | some pr =>
        obtain ⟨a, refs'⟩ := pr
        dsimp only
        obtain ⟨haRefs, hsub, ⟨t, hta, htid⟩, hkeep⟩ :=
          popFirstById_spec s.heap refs tid a refs' hpop
        have hcurmem : (s.current, refs) ∈ s.index := ifind_mem _ _ _ hc
        have hndRefs : refs.Nodup := hwf.refsNodup _ hcurmem
        have hanotin : a ∉ refs' := popFirstById_not_mem _ _ _ _ _ hpop hndRefs
        rw [hta]
        dsimp only
        obtain ⟨t0, ht0, hcurcats, hallcats⟩ := hwf.refValid _ hcurmem a haRefs
        have hteq : t0 = t := by rw [ht0] at hta; injection hta
        subst hteq
        rw [if_pos hcurcats]
        -- the one-entry-removed store
        have hfind1 : ∀ r : Nat, r ≠ a →
            hfind (hmod s.heap a (fun u => { u with categories := u.categories.erase s.current })) r =
            hfind s.heap r := by
          intro r hr
          rw [hfind_hmod, if_neg hr]
        have hfind1a :
            hfind (hmod s.heap a (fun u => { u with categories := u.categories.erase s.current })) a =
            some { t0 with categories := t0.categories.erase s.current } := by
          rw [hfind_hmod, if_pos rfl, ht0]
          rfl
        have hidpres : ∀ r u, hfind (hmod s.heap a
              (fun v => { v with categories := v.categories.erase s.current })) r = some u →
            ∃ u0 : Task, hfind s.heap r = some u0 ∧ u.id = u0.id := by
          intro r u hr
          rw [hfind_hmod] at hr
          by_cases hra : r = a
          · rw [if_pos hra] at hr
            cases hor : hfind s.heap r with
            | none => rw [hor] at hr; cases hr
            | some u0 =>
              rw [hor] at hr
              injection hr with e
              exact ⟨u0, rfl, by rw [← e]⟩
          · rw [if_neg hra] at hr
            exact ⟨u, hr, rfl⟩
        have hmemIdx : ∀ p' ∈ imod s.index s.current (fun _ => refs'),
            ∀ r ∈ p'.2, ∃ q ∈ s.index, q.1 = p'.1 ∧
              ((p'.1 = s.current ∧ r ∈ refs ∧ r ≠ a) ∨ (p'.1 ≠ s.current ∧ r ∈ q.2)) := by
          intro p' hp' r hr
          obtain ⟨q, hq, he⟩ := mem_imod _ _ _ p' hp'
          by_cases hk : q.1 = s.current
          · rw [if_pos hk] at he
            rw [he] at hr ⊢
            exact ⟨q, hq, rfl, Or.inl ⟨hk, hsub r hr, fun hra => hanotin (hra ▸ hr)⟩⟩
          · rw [if_neg hk] at he
            rw [he] at hr ⊢
            exact ⟨q, hq, rfl, Or.inr ⟨hk, hr⟩⟩
        have hAllfind : ifind (imod s.index s.current (fun _ => refs')) "All" =
            ifind s.index "All" := by
          rw [ifind_imod, if_neg (fun he => hcur he.symm)]
        refine ⟨wf_ensureKeys _ ?_, unique_ensureKeys _ ?_,
          fun i hi => ?_⟩
        · refine ⟨?_, ?_, ?_, ?_, ?_, ?_⟩
          · rw [show ({ s with
                index := imod s.index s.current (fun _ => refs'),
                heap := hmod s.heap a
                  (fun u => { u with categories := u.categories.erase s.current }) } : Store).index =
                imod s.index s.current (fun _ => refs') from rfl, hAllfind]
            exact hwf.allKey
          · intro p' hp' r hr
            obtain ⟨q, hq, hk, hcase⟩ := hmemIdx p' hp' r hr
            rcases hcase with ⟨hkc, hrrefs, hra⟩ | ⟨hkc, hrq⟩
            · obtain ⟨u, hu1, hc1, hc2⟩ := hwf.refValid _ hcurmem r hrrefs
              rw [← hkc] at hc1
              exact ⟨u, by rw [hfind1 r hra]; exact hu1, hk ▸ hc1, hc2⟩
            · by_cases hra : r = a
              · subst hra
                obtain ⟨u, hu1, hc1, hc2⟩ := hwf.refValid q hq r hrq
                have hut : u = t0 := by
                  rw [hu1] at ht0
                  exact Option.some.inj ht0
                subst hut
                refine ⟨{ u with categories := u.categories.erase s.current },
                  hfind1a, ?_, ?_⟩
                · exact (List.mem_erase_of_ne (hk ▸ hkc : q.1 ≠ s.current)).mpr hc1 |>
                    fun hm => hk ▸ hm
                · exact (List.mem_erase_of_ne
                    (fun he => hcur he.symm : "All" ≠ s.current)).mpr hc2
              · obtain ⟨u, hu1, hc1, hc2⟩ := hwf.refValid q hq r hrq
                exact ⟨u, by rw [hfind1 r hra]; exact hu1, hk ▸ hc1, hc2⟩
          · intro p' hp' r hr
            obtain ⟨q, hq, hk, hcase⟩ := hmemIdx p' hp' r hr
            rw [show ({ s with
                index := imod s.index s.current (fun _ => refs'),
                heap := hmod s.heap a
                  (fun u => { u with categories := u.categories.erase s.current }) } : Store).index =
                imod s.index s.current (fun _ => refs') from rfl, hAllfind]
            rcases hcase with ⟨_, hrrefs, _⟩ | ⟨_, hrq⟩
            · exact hwf.inAll _ hcurmem r hrrefs
            · exact hwf.inAll q hq r hrq
          · intro p' hp'
            obtain ⟨q, hq, he⟩ := mem_imod _ _ _ p' hp'
            by_cases hk : q.1 = s.current
            · rw [if_pos hk] at he
              rw [he]
              exact List.Nodup.sublist (popFirstById_sublist _ _ _ _ _ hpop) hndRefs
            · rw [if_neg hk] at he
              rw [he]
              exact hwf.refsNodup q hq
          · intro p' hp' r hr
            obtain ⟨q, hq, hk, hcase⟩ := hmemIdx p' hp' r hr
            rcases hcase with ⟨_, hrrefs, _⟩ | ⟨_, hrq⟩
            · exact hwf.refsBound _ hcurmem r hrrefs
            · exact hwf.refsBound q hq r hrq
          · intro q hq
            have hq1 : q.1 ∈ (hmod s.heap a
                (fun u => { u with categories := u.categories.erase s.current })).map Prod.fst :=
              List.mem_map_of_mem Prod.fst hq
            rw [hmod_map_fst] at hq1
            obtain ⟨q0, hq0, he⟩ := List.mem_map.mp hq1
            exact he ▸ hwf.heapBound q0 hq0
        · intro p hp q hq r hr r' hr' u u' hfr hfr' hid
          obtain ⟨qp, hqp, _, hcasep⟩ := hmemIdx p hp r hr
          obtain ⟨qq, hqq, _, hcaseq⟩ := hmemIdx q hq r' hr'
          obtain ⟨u0, hu0, hie⟩ := hidpres r u hfr
          obtain ⟨u0', hu0', hie'⟩ := hidpres r' u' hfr'
          rcases hcasep with ⟨_, hrrefs, _⟩ | ⟨_, hrq⟩ <;>
            rcases hcaseq with ⟨_, hrrefs', _⟩ | ⟨_, hrq'⟩
          · exact hu _ hcurmem _ hcurmem r hrrefs r' hrrefs' u0 u0' hu0 hu0'
              (by rw [← hie, ← hie', hid])
          · exact hu _ hcurmem qq hqq r hrrefs r' hrq' u0 u0' hu0 hu0'
              (by rw [← hie, ← hie', hid])
          · exact hu qp hqp _ hcurmem r hrq r' hrrefs' u0 u0' hu0 hu0'
              (by rw [← hie, ← hie', hid])
          · exact hu qp hqp qq hqq r hrq r' hrq' u0 u0' hu0 hu0'
              (by rw [← hie, ← hie', hid])
        · obtain ⟨p, hp, r, hr, u, hfr, hid⟩ := idIn_ensureKeys _ i hi
          obtain ⟨qp, hqp, _, hcasep⟩ := hmemIdx p hp r hr
          obtain ⟨u0, hu0, hie⟩ := hidpres r u hfr
          rcases hcasep with ⟨_, hrrefs, _⟩ | ⟨_, hrq⟩
          · exact ⟨_, hcurmem, r, hrrefs, u0, hu0, by rw [← hie, hid]⟩
          · exact ⟨qp, hqp, r, hrq, u0, hu0, by rw [← hie, hid]⟩

theorem findById_spec (h : Heap) (refs : List Nat) (tid : Int) (a : Nat)
    (hf : findById h refs tid = some a) :
    a ∈ refs ∧ ∃ u : Task, hfind h a = some u ∧ u.id = tid := by
  induction refs with
  | nil => cases hf
  | cons r0 rest ih =>
    rw [findById] at hf
    cases h0 : hfind h r0 with
    | some t0 =>
      rw [h0] at hf
      dsimp only at hf
      by_cases hid : t0.id = tid
      · rw [if_pos hid] at hf
        injection hf with hf
        subst hf
        exact ⟨List.mem_cons_self _ _, t0, h0, hid⟩
      · rw [if_neg hid] at hf
        obtain ⟨hmem, hex⟩ := ih hf
        exact ⟨List.mem_cons_of_mem _ hmem, hex⟩
    | none =>
      rw [h0] at hf
      dsimp only at hf
      obtain ⟨hmem, hex⟩ := ih hf
      exact ⟨List.mem_cons_of_mem _ hmem, hex⟩

theorem ifind_iremove (i : Index) (name c : String) :
    ifind (iremove i name) c = if c = name then none else ifind i c := by
  induction i with
  | nil => by_cases h : c = name <;> simp [ifind, iremove, h]
  | cons p rest ih =>
    obtain ⟨d, rs⟩ := p
    rw [iremove]
    by_cases hdn : d = name
    · rw [if_pos hdn, ih]
      by_cases hcn : c = name
      · rw [if_pos hcn, if_pos hcn]
      · rw [if_neg hcn, if_neg hcn, ifind, if_neg (fun he : d = c => hcn (he ▸ hdn))]
    · rw [if_neg hdn]
      by_cases hdc : d = c
      · rw [ifind, if_pos hdc, ifind, if_pos hdc,
          if_neg (fun hcn : c = name => hdn (hdc.trans hcn))]
      · rw [ifind, if_neg hdc, ih, ifind, if_neg hdc]

theorem mem_iremove (i : Index) (name : String) (p : String × List Nat)
    (hp : p ∈ iremove i name) : p ∈ i ∧ p.1 ≠ name := by
  induction i with
  | nil => cases hp
  | cons p0 rest ih =>
    obtain ⟨d, rs⟩ := p0
    rw [iremove] at hp
    by_cases hdn : d = name
    · rw [if_pos hdn] at hp
      obtain ⟨hm, hn⟩ := ih hp
      exact ⟨List.mem_cons_of_mem _ hm, hn⟩
    · rw [if_neg hdn] at hp
      rcases List.mem_cons.mp hp with he | hm
      · exact ⟨he ▸ List.mem_cons_self _ _, by rw [he]; exact hdn⟩
      · obtain ⟨hm2, hn⟩ := ih hm
        exact ⟨List.mem_cons_of_mem _ hm2, hn⟩

theorem ifind_none_forall (i : Index) (c : String) (h : ifind i c = none) :
    ∀ p ∈ i, p.1 ≠ c := by
  induction i with
  | nil => intro p hp; cases hp
  | cons p0 rest ih =>
    obtain ⟨d, rs⟩ := p0
    rw [ifind] at h
    by_cases hdc : d = c
    · rw [if_pos hdc] at h; cases h
    · rw [if_neg hdc] at h
      intro p hp
      rcases List.mem_cons.mp hp with he | hm
      · rw [he]; exact hdc
      · exact ih h p hm

theorem filter_idem {α : Type} (p : α → Bool) (l : List α) :
    (l.filter p).filter p = l.filter p := by
  simp [List.filter_filter]

theorem ifind_removeFold (cats : List String) (i : Index) (pred : Nat → Bool) (c' : String) :
    ifind (cats.foldl (fun idx c =>
      match ifind idx c with
      | none => idx
      | some _ => imod idx c (fun rs => rs.filter pred)) i) c' =
    if c' ∈ cats then (ifind i c').map (fun rs => rs.filter pred) else ifind i c' := by
  induction cats generalizing i with
  | nil => simp
  | cons c0 rest ih =>
    rw [List.foldl_cons, ih]
    cases h0 : ifind i c0 with
    | none =>
      dsimp only
      by_cases hmem : c' ∈ rest
      · rw [if_pos hmem, if_pos (List.mem_cons_of_mem _ hmem)]
      · rw [if_neg hmem]
        by_cases hc0 : c' = c0
        · rw [if_pos (hc0 ▸ List.mem_cons_self c0 rest), hc0, h0]
          rfl
        · rw [if_neg (by simp [List.mem_cons, hc0, hmem])]
    | some rs0 =>
      dsimp only
      by_cases hc0 : c' = c0
      · subst hc0
        rw [ifind_imod, if_pos rfl]
        by_cases hmem : c' ∈ rest
        · rw [if_pos hmem, if_pos (List.mem_cons_self c' rest)]
          cases hcc : ifind i c' <;> simp [filter_idem]
        · rw [if_neg hmem, if_pos (List.mem_cons_self c' rest)]
      · rw [ifind_imod, if_neg hc0]
        by_cases hmem : c' ∈ rest
        · rw [if_pos hmem, if_pos (List.mem_cons_of_mem _ hmem)]
        · rw [if_neg hmem, if_neg (by simp [List.mem_cons, hc0, hmem])]

theorem mem_removeFold (cats : List String) (i : Index) (pred : Nat → Bool)
    (p' : String × List Nat)
    (hp' : p' ∈ cats.foldl (fun idx c =>
      match ifind idx c with
      | none => idx
      | some _ => imod idx c (fun rs => rs.filter pred)) i) :
    ∃ q ∈ i, p'.1 = q.1 ∧ (p'.2 = q.2 ∨ p'.2 = q.2.filter pred) ∧
      (p'.1 ∈ cats → p'.2 = q.2.filter pred) := by
  induction cats generalizing i with
  | nil =>
    exact ⟨p', hp', rfl, Or.inl rfl, fun h => absurd h (List.not_mem_nil _)⟩
  | cons c0 rest ih =>
    rw [List.foldl_cons] at hp'
    obtain ⟨q', hq', hk', hdisj', hforce'⟩ := ih _ hp'
    cases h0 : ifind i c0 with
    | none =>
      rw [h0] at hq'
      dsimp only at hq'
      refine ⟨q', hq', hk', hdisj', ?_⟩
      intro hm
      rcases List.mem_cons.mp hm with he | hm2
      · exact absurd (hk' ▸ he : q'.1 = c0) (ifind_none_forall i c0 h0 q' hq')
      · exact hforce' hm2
    | some rs0 =>
      rw [h0] at hq'
      dsimp only at hq'
      obtain ⟨q, hq, he⟩ := mem_imod _ _ _ q' hq'
      by_cases hqc : q.1 = c0
      · rw [if_pos hqc] at he
        refine ⟨q, hq, by rw [hk', he], ?_, ?_⟩
        · rcases hdisj' with h | h
          · exact Or.inr (by rw [h, he])
          · exact Or.inr (by rw [h, he]; exact filter_idem pred q.2)
        · intro _
          rcases hdisj' with h | h
          · rw [h, he]
          · rw [h, he]; exact filter_idem pred q.2
      · rw [if_neg hqc] at he
        refine ⟨q, hq, by rw [hk', he], ?_, ?_⟩
        · rcases hdisj' with h | h
          · exact Or.inl (by rw [h, he])
          · exact Or.inr (by rw [h, he])
        · intro hm
          rcases List.mem_cons.mp hm with hec | hm2
          · exact absurd (show q.1 = c0 by rw [← he]; exact hk' ▸ hec) hqc
          · rw [hforce' hm2, he]

/-- After the `remove_task` fan-out, no surviving reference holds a task with
the removed id (this needs id-uniqueness: with a duplicate id the fan-out can
miss a category, see the counterexamples). -/
theorem removeFold_no_tid (s : Store) (tid : Int) (hwf : WF s) (hu : UniqueIds s)
    (refs : List Nat) (hc : ifind s.index s.current = some refs)
    (a : Nat) (haRefs : a ∈ refs) (t : Task) (hfa : hfind s.heap a = some t)
    (htid : t.id = tid) :
    ∀ p' ∈ t.categories.foldl (fun idx c =>
        match ifind idx c with
        | none => idx
        | some _ => imod idx c (fun rs => rs.filter (fun r =>
            match hfind s.heap r with
            | some u => u.id ≠ tid
            | none => true))) s.index,
      ∀ r ∈ p'.2, ∀ u : Task, hfind s.heap r = some u → u.id ≠ tid := by
  intro p' hp' r hr u hru huid
  obtain ⟨q, hq, hk, hdisj, hforce⟩ := mem_removeFold _ _ _ p' hp'
  have hrq : r ∈ q.2 := by
    rcases hdisj with h | h
    · rw [h] at hr; exact hr
    · rw [h] at hr; exact (List.mem_filter.mp hr).1
  have hra : r = a :=
    hu q hq _ (ifind_mem _ _ _ hc) r hrq a haRefs u t hru hfa (by rw [huid, htid])
  subst hra
  obtain ⟨t0, ht0, hqc, _⟩ := hwf.refValid q hq r hrq
  have ht0t : t0 = t := by rw [hfa] at ht0; exact (Option.some.inj ht0).symm
  have hforce2 := hforce (by rw [hk]; exact ht0t ▸ hqc)
  rw [hforce2] at hr
  have hpred := (List.mem_filter.mp hr).2
  rw [hfa] at hpred
  simp [htid] at hpred

theorem step_removeTask (s : Store) (tid : Int) (hwf : WF s) (hu : UniqueIds s) :
    WF (removeTask s tid).1 ∧ UniqueIds (removeTask s tid).1 ∧
    (∀ i, IdIn (removeTask s tid).1 i → IdIn s i) := by
  rw [removeTask]
  cases hc : ifind s.index s.current with
  | none => exact ⟨hwf, hu, fun i hi => hi⟩
  | some refs =>
    dsimp only
    cases hf : findById s.heap refs tid with
    | none => exact ⟨hwf, hu, fun i hi => hi⟩
    | some a =>
      dsimp only
      cases hfa : hfind s.heap a with
      | none => exact ⟨hwf, hu, fun i hi => hi⟩
      | some t =>
        dsimp only
        obtain ⟨haRefs, u0, hu0, hu0id⟩ := findById_spec s.heap refs tid a hf
        have htu : u0 = t := by rw [hfa] at hu0; exact (Option.some.inj hu0).symm
        have htid2 : t.id = tid := htu ▸ hu0id
        have hcurmem := ifind_mem _ _ _ hc
        have hnotid := removeFold_no_tid s tid hwf hu refs hc a haRefs t hfa htid2
        have hmemq : ∀ p' ∈ t.categories.foldl (fun idx c =>
            match ifind idx c with
            | none => idx
            | some _ => imod idx c (fun rs => rs.filter (fun r =>
                match hfind s.heap r with
                | some u => u.id ≠ tid
                | none => true))) s.index,
            ∀ r ∈ p'.2, ∃ q ∈ s.index, q.1 = p'.1 ∧ r ∈ q.2 := by
          intro p' hp' r hr
          obtain ⟨q, hq, hk, hdisj, _⟩ := mem_removeFold _ _ _ p' hp'
          refine ⟨q, hq, hk.symm, ?_⟩
          rcases hdisj with h | h
          · rw [h] at hr; exact hr
          · rw [h] at hr; exact (List.mem_filter.mp hr).1
        refine ⟨wf_ensureKeys _ ⟨?_, ?_, ?_, ?_, ?_, ?_⟩, unique_ensureKeys _ ?_,
          fun i hi => ?_⟩
        · obtain ⟨al, hal⟩ := Option.isSome_iff_exists.mp hwf.allKey
          rw [show ({ s with index := t.categories.foldl (fun idx c =>
              match ifind idx c with
              | none => idx
              | some _ => imod idx c (fun rs => rs.filter (fun r =>
                  match hfind s.heap r with
                  | some u => u.id ≠ tid
                  | none => true))) s.index } : Store).index =
              t.categories.foldl (fun idx c =>
              match ifind idx c with
              | none => idx
              | some _ => imod idx c (fun rs => rs.filter (fun r =>
                  match hfind s.heap r with
                  | some u => u.id ≠ tid
                  | none => true))) s.index from rfl, ifind_removeFold]
          by_cases hm : "All" ∈ t.categories <;> simp [hm, hal]
        · intro p' hp' r hr
          obtain ⟨q, hq, hk, hrq⟩ := hmemq p' hp' r hr
          obtain ⟨u, hu1, hc1, hc2⟩ := hwf.refValid q hq r hrq
          exact ⟨u, hu1, hk ▸ hc1, hc2⟩
        · intro p' hp' r hr
          obtain ⟨q, hq, hk, hrq⟩ := hmemq p' hp' r hr
          obtain ⟨al, hal⟩ := Option.isSome_iff_exists.mp hwf.allKey
          have hrold : r ∈ al := by
            have := hwf.inAll q hq r hrq
            rw [hal] at this
            exact this
          rw [show ({ s with index := t.categories.foldl (fun idx c =>
              match ifind idx c with
              | none => idx
              | some _ => imod idx c (fun rs => rs.filter (fun r =>
                  match hfind s.heap r with
                  | some u => u.id ≠ tid
                  | none => true))) s.index } : Store).index =
              t.categories.foldl (fun idx c =>
              match ifind idx c with
              | none => idx
              | some _ => imod idx c (fun rs => rs.filter (fun r =>
                  match hfind s.heap r with
                  | some u => u.id ≠ tid
                  | none => true))) s.index from rfl, ifind_removeFold]
          by_cases hm : "All" ∈ t.categories
          · rw [if_pos hm, hal]
            refine List.mem_filter.mpr ⟨hrold, ?_⟩
            cases hru : hfind s.heap r with
            | none => rfl
            | some u => simp [hnotid p' hp' r hr u hru]
          · rw [if_neg hm, hal]
            exact hrold
        · intro p' hp'
          obtain ⟨q, hq, hk, hdisj, _⟩ := mem_removeFold _ _ _ p' hp'
          rcases hdisj with h | h
          · rw [h]; exact hwf.refsNodup q hq
          · rw [h]; exact List.Nodup.filter _ (hwf.refsNodup q hq)
        · intro p' hp' r hr
          obtain ⟨q, hq, hk, hrq⟩ := hmemq p' hp' r hr
          exact hwf.refsBound q hq r hrq
        · exact hwf.heapBound
        · intro p hp q hq r hr r' hr' u u' hfr hfr' hid
          obtain ⟨qp, hqp, _, hrp⟩ := hmemq p hp r hr
          obtain ⟨qq, hqq, _, hrq⟩ := hmemq q hq r' hr'
          exact hu qp hqp qq hqq r hrp r' hrq u u' hfr hfr' hid
        · obtain ⟨p, hp, r, hr, u, hfr, hid⟩ := idIn_ensureKeys _ i hi
          obtain ⟨qp, hqp, _, hrp⟩ := hmemq p hp r hr
          exact ⟨qp, hqp, r, hrp, u, hfr, hid⟩

/-- `remove_task` on a well-formed store with unique ids: returns `True` and
leaves no occurrence of the id anywhere in the index. -/
theorem removeTask_spec (s : Store) (tid : Int) (hwf : WF s) (hu : UniqueIds s)
    (refs : List Nat) (hc : ifind s.index s.current = some refs)
    (a : Nat) (hf : findById s.heap refs tid = some a) :
    (removeTask s tid).2 = true ∧
    (∀ p ∈ (removeTask s tid).1.index, ∀ r ∈ p.2, ∀ u : Task,
      hfind (removeTask s tid).1.heap r = some u → u.id ≠ tid) := by
  rw [removeTask, hc]
  dsimp only
  rw [hf]
  dsimp only
  obtain ⟨haRefs, t, hfa, htid⟩ := findById_spec s.heap refs tid a hf
  rw [hfa]
  dsimp only
  have hnotid := removeFold_no_tid s tid hwf hu refs hc a haRefs t hfa htid
  refine ⟨rfl, ?_⟩
  intro p hp r hr u hru
  rcases mem_foldl_iensure _ _ p hp with hp2 | hp2
  · exact hnotid p hp2 r hr u hru
  · rw [hp2] at hr; cases hr

/-- Invariant preservation for the second phase of `move_task_to_category`:
filter the moved id out of the current category's sequence and erase the
current category from the task's membership list. -/
theorem step_filterCurErase (s : Store) (tid : Int) (a : Nat) (t : Task)
    (hwf : WF s) (hu : UniqueIds s)
    (hcur : s.current ≠ "All")
    (ha : hfind s.heap a = some t) (htid : t.id = tid) :
    WF { s with
         index := imod s.index s.current (fun rs => rs.filter (fun r =>
           match hfind s.heap r with
           | some u => u.id ≠ tid
           | none => true)),
         heap := (match hfind s.heap a with
           | some u =>
             if s.current ∈ u.categories
             then hmod s.heap a (fun v => { v with categories := v.categories.erase s.current })
             else s.heap
           | none => s.heap) } ∧
    UniqueIds { s with
         index := imod s.index s.current (fun rs => rs.filter (fun r =>
           match hfind s.heap r with
           | some u => u.id ≠ tid
           | none => true)),
         heap := (match hfind s.heap a with
           | some u =>
             if s.current ∈ u.categories
             then hmod s.heap a (fun v => { v with categories := v.categories.erase s.current })
             else s.heap
           | none => s.heap) } ∧
    (∀ i, IdIn { s with
         index := imod s.index s.current (fun rs => rs.filter (fun r =>
           match hfind s.heap r with
           | some u => u.id ≠ tid
           | none => true)),
         heap := (match hfind s.heap a with
           | some u =>
             if s.current ∈ u.categories
             then hmod s.heap a (fun v => { v with categories := v.categories.erase s.current })
             else s.heap
           | none => s.heap) } i → IdIn s i) := by
  rw [ha]
  dsimp only
  have hmemIdx : ∀ p' ∈ imod s.index s.current (fun rs => rs.filter (fun r =>
        match hfind s.heap r with
        | some u => u.id ≠ tid
        | none => true)),
      ∀ r ∈ p'.2, ∃ q ∈ s.index, q.1 = p'.1 ∧ r ∈ q.2 ∧ (p'.1 = s.current → r ≠ a) := by
    intro p' hp' r hr
    obtain ⟨q, hq, he⟩ := mem_imod _ _ _ p' hp'
    by_cases hk : q.1 = s.current
    · rw [if_pos hk] at he
      rw [he] at hr ⊢
      have hrf := List.mem_filter.mp hr
      refine ⟨q, hq, rfl, hrf.1, fun _ hra => ?_⟩
      have h2 := hrf.2
      simp [hra, ha, htid] at h2
    · rw [if_neg hk] at he
      rw [he] at hr ⊢
      exact ⟨q, hq, rfl, hr, fun hc => absurd (he ▸ hc) hk⟩
  have hAllfind : ifind (imod s.index s.current (fun rs => rs.filter (fun r =>
      match hfind s.heap r with
      | some u => u.id ≠ tid
      | none => true))) "All" = ifind s.index "All" := by
    rw [ifind_imod, if_neg (fun he : "All" = s.current => hcur he.symm)]
  have hnodupIdx : ∀ p' ∈ imod s.index s.current (fun rs => rs.filter (fun r =>
        match hfind s.heap r with
        | some u => u.id ≠ tid
        | none => true)), (p'.2 : List Nat).Nodup := by
    intro p' hp'
    obtain ⟨q, hq, he⟩ := mem_imod _ _ _ p' hp'
    by_cases hk : q.1 = s.current
    · rw [if_pos hk] at he
      rw [he]
      exact List.Nodup.filter _ (hwf.refsNodup q hq)
    · rw [if_neg hk] at he
      rw [he]
      exact hwf.refsNodup q hq
  by_cases hct : s.current ∈ t.categories
  · rw [if_pos hct]
    have hfind1 : ∀ r : Nat, r ≠ a →
        hfind (hmod s.heap a (fun v => { v with categories := v.categories.erase s.current })) r =
        hfind s.heap r := by
      intro r hr
      rw [hfind_hmod, if_neg hr]
    have hfind1a :
        hfind (hmod s.heap a (fun v => { v with categories := v.categories.erase s.current })) a =
        some { t with categories := t.categories.erase s.current } := by
      rw [hfind_hmod, if_pos rfl, ha]
      rfl
    have hidpres : ∀ r u, hfind (hmod s.heap a
          (fun v => { v with categories := v.categories.erase s.current })) r = some u →
        ∃ u0 : Task, hfind s.heap r = some u0 ∧ u.id = u0.id := by
      intro r u hr
      rw [hfind_hmod] at hr
      by_cases hra : r = a
      · rw [if_pos hra] at hr
        cases hor : hfind s.heap r with
        | none => rw [hor] at hr; cases hr
        | some u0 =>
          rw [hor] at hr
          injection hr with e
          exact ⟨u0, rfl, by rw [← e]⟩
      · rw [if_neg hra] at hr
        exact ⟨u, hr, rfl⟩
    refine ⟨⟨?_, ?_, ?_, ?_, ?_, ?_⟩, ?_, ?_⟩
    · rw [show ({ s with
          index := imod s.index s.current (fun rs => rs.filter (fun r =>
            match hfind s.heap r with
            | some u => u.id ≠ tid
            | none => true)),
          heap := hmod s.heap a
            (fun v => { v with categories := v.categories.erase s.current }) } : Store).index =
          imod s.index s.current (fun rs => rs.filter (fun r =>
            match hfind s.heap r with
            | some u => u.id ≠ tid
            | none => true)) from rfl, hAllfind]
      exact hwf.allKey
    · intro p' hp' r hr
      obtain ⟨q, hq, hk, hrq, hne⟩ := hmemIdx p' hp' r hr
      by_cases hra : r = a
      · have hkc : p'.1 ≠ s.current := fun hpc => (hne hpc) hra
        obtain ⟨u, hu1, hc1, hc2⟩ := hwf.refValid q hq r hrq
        have hut : u = t := by
          rw [hra] at hu1
          rw [ha] at hu1
          exact (Option.some.inj hu1).symm
        subst hut
        refine ⟨{ u with categories := u.categories.erase s.current }, ?_, ?_, ?_⟩
        · rw [hra]; exact hfind1a
        · exact (List.mem_erase_of_ne (hk ▸ hkc : q.1 ≠ s.current)).mpr hc1 |>
            fun hm => hk ▸ hm
        · exact (List.mem_erase_of_ne
            (fun he : "All" = s.current => hcur he.symm)).mpr hc2
    -- non-a case below
      · obtain ⟨u, hu1, hc1, hc2⟩ := hwf.refValid q hq r hrq
        exact ⟨u, by rw [hfind1 r hra]; exact hu1, hk ▸ hc1, hc2⟩
    · intro p' hp' r hr
      obtain ⟨q, hq, hk, hrq, _⟩ := hmemIdx p' hp' r hr
      rw [show ({ s with
          index := imod s.index s.current (fun rs => rs.filter (fun r =>
            match hfind s.heap r with
            | some u => u.id ≠ tid
            | none => true)),
          heap := hmod s.heap a
            (fun v => { v with categories := v.categories.erase s.current }) } : Store).index =
          imod s.index s.current (fun rs => rs.filter (fun r =>
            match hfind s.heap r with
            | some u => u.id ≠ tid
            | none => true)) from rfl, hAllfind]
      exact hwf.inAll q hq r hrq
    · exact hnodupIdx
    · intro p' hp' r hr
      obtain ⟨q, hq, hk, hrq, _⟩ := hmemIdx p' hp' r hr
      exact hwf.refsBound q hq r hrq
    · intro q hq
      have hq1 : q.1 ∈ (hmod s.heap a
          (fun v => { v with categories := v.categories.erase s.current })).map Prod.fst :=
        List.mem_map_of_mem Prod.fst hq
      rw [hmod_map_fst] at hq1
      obtain ⟨q0, hq0, he⟩ := List.mem_map.mp hq1
      exact he ▸ hwf.heapBound q0 hq0
    · intro p hp q hq r hr r' hr' u u' hfr hfr' hid
      obtain ⟨qp, hqp, _, hrp, _⟩ := hmemIdx p hp r hr
      obtain ⟨qq, hqq, _, hrq, _⟩ := hmemIdx q hq r' hr'
      obtain ⟨u0, hu0, hie⟩ := hidpres r u hfr
      obtain ⟨u0', hu0', hie'⟩ := hidpres r' u' hfr'
      exact hu qp hqp qq hqq r hrp r' hrq u0 u0' hu0 hu0' (by rw [← hie, ← hie', hid])
    · intro i hi
      obtain ⟨p, hp, r, hr, u, hfr, hid⟩ := hi
      obtain ⟨qp, hqp, _, hrp, _⟩ := hmemIdx p hp r hr
      obtain ⟨u0, hu0, hie⟩ := hidpres r u hfr
      exact ⟨qp, hqp, r, hrp, u0, hu0, by rw [← hie, hid]⟩
  · rw [if_neg hct]
    refine ⟨⟨?_, ?_, ?_, ?_, ?_, ?_⟩, ?_, ?_⟩
    · rw [show ({ s with
          index := imod s.index s.current (fun rs => rs.filter (fun r =>
            match hfind s.heap r with
            | some u => u.id ≠ tid
            | none => true)),
          heap := s.heap } : Store).index =
          imod s.index s.current (fun rs => rs.filter (fun r =>
            match hfind s.heap r with
            | some u => u.id ≠ tid
            | none => true)) from rfl, hAllfind]
      exact hwf.allKey
    · intro p' hp' r hr
      obtain ⟨q, hq, hk, hrq, _⟩ := hmemIdx p' hp' r hr
      obtain ⟨u, hu1, hc1, hc2⟩ := hwf.refValid q hq r hrq
      exact ⟨u, hu1, hk ▸ hc1, hc2⟩
    · intro p' hp' r hr
      obtain ⟨q, hq, hk, hrq, _⟩ := hmemIdx p' hp' r hr
      rw [show ({ s with
          index := imod s.index s.current (fun rs => rs.filter (fun r =>
            match hfind s.heap r with
            | some u => u.id ≠ tid
            | none => true)),
          heap := s.heap } : Store).index =
          imod s.index s.current (fun rs => rs.filter (fun r =>
            match hfind s.heap r with
            | some u => u.id ≠ tid
            | none => true)) from rfl, hAllfind]
      exact hwf.inAll q hq r hrq
    · exact hnodupIdx
    · intro p' hp' r hr
      obtain ⟨q, hq, hk, hrq, _⟩ := hmemIdx p' hp' r hr
      exact hwf.refsBound q hq r hrq
    · exact hwf.heapBound
    · intro p hp q hq r hr r' hr' u u' hfr hfr' hid
      obtain ⟨qp, hqp, _, hrp, _⟩ := hmemIdx p hp r hr
      obtain ⟨qq, hqq, _, hrq, _⟩ := hmemIdx q hq r' hr'
      exact hu qp hqp qq hqq r hrp r' hrq u u' hfr hfr' hid
    · intro i hi
      obtain ⟨p, hp, r, hr, u, hfr, hid⟩ := hi
      obtain ⟨qp, hqp, _, hrp, _⟩ := hmemIdx p hp r hr
      exact ⟨qp, hqp, r, hrp, u, hfr, hid⟩

theorem step_moveTaskToCategory (s : Store) (tid : Int) (target : String)
    (hwf : WF s) (hu : UniqueIds s) :
    WF (moveTaskToCategory s tid target) ∧ UniqueIds (moveTaskToCategory s tid target) ∧
    (∀ i, IdIn (moveTaskToCategory s tid target) i → IdIn s i) := by
  rw [moveTaskToCategory]
  cases hc : ifind s.index s.current with
  | none => exact ⟨hwf, hu, fun i hi => hi⟩
  | some refs =>
    dsimp only
    cases hf : findById s.heap refs tid with
    | none => exact ⟨hwf, hu, fun i hi => hi⟩
    | some a =>
      dsimp only
      cases hfa : hfind s.heap a with
      | none => exact ⟨hwf, hu, fun i hi => hi⟩
      | some t =>
        dsimp only
        obtain ⟨haRefs, u0, hu0, hu0id⟩ := findById_spec s.heap refs tid a hf
        have htu : u0 = t := by rw [hfa] at hu0; exact (Option.some.inj hu0).symm
        have htid : t.id = tid := htu ▸ hu0id
        have hcurmem := ifind_mem _ _ _ hc
        obtain ⟨t0, ht0, hcurc, hallc⟩ := hwf.refValid _ hcurmem a haRefs
        have ht0t : t0 = t := by rw [hfa] at ht0; exact (Option.some.inj ht0).symm
        rw [ht0t] at hcurc hallc
        by_cases htgt : target ∉ t.categories
        · rw [if_pos htgt, if_pos htgt]
          have htgtAll : target ≠ "All" := fun he => htgt (he ▸ hallc)
          have hfrtgt : ∀ q ∈ s.index, q.1 = target → a ∉ q.2 := by
            intro q hq hk hmem
            obtain ⟨u, hu1, hc1, _⟩ := hwf.refValid q hq a hmem
            have hut : u = t := by rw [hfa] at hu1; exact (Option.some.inj hu1).symm
            exact htgt (hk ▸ hut ▸ hc1)
          have hfa1 : hfind (hmod s.heap a
              (fun u => { u with categories := u.categories ++ [target] })) a =
              some { t with categories := t.categories ++ [target] } := by
            rw [hfind_hmod, if_pos rfl, hfa]
            rfl
          have hfind1 : ∀ r : Nat, r ≠ a →
              hfind (hmod s.heap a
                (fun u => { u with categories := u.categories ++ [target] })) r =
              hfind s.heap r := by
            intro r hr
            rw [hfind_hmod, if_neg hr]
          have hidpres : ∀ r u, hfind (hmod s.heap a
                (fun v => { v with categories := v.categories ++ [target] })) r = some u →
              ∃ uz : Task, hfind s.heap r = some uz ∧ u.id = uz.id := by
            intro r u hr
            rw [hfind_hmod] at hr
            by_cases hra : r = a
            · rw [if_pos hra] at hr
              cases hor : hfind s.heap r with
              | none => rw [hor] at hr; cases hr
              | some uz =>
                rw [hor] at hr
                injection hr with e
                exact ⟨uz, rfl, by rw [← e]⟩
            · rw [if_neg hra] at hr
              exact ⟨u, hr, rfl⟩
          have hA : WF { s with
              heap := hmod s.heap a
                (fun u => { u with categories := u.categories ++ [target] }),
              index := imod (iensure s.index target) target (fun rs => rs ++ [a]) } ∧
            UniqueIds { s with
              heap := hmod s.heap a
                (fun u => { u with categories := u.categories ++ [target] }),
              index := imod (iensure s.index target) target (fun rs => rs ++ [a]) } ∧
            (∀ i, IdIn { s with
              heap := hmod s.heap a
                (fun u => { u with categories := u.categories ++ [target] }),
              index := imod (iensure s.index target) target (fun rs => rs ++ [a]) } i →
              IdIn s i) := by
            have hAllf : ifind (imod (iensure s.index target) target
                (fun rs => rs ++ [a])) "All" = ifind s.index "All" := by
              rw [addTask_ifind1, if_neg (fun he : "All" = target => htgtAll he.symm)]
            refine ⟨⟨?_, ?_, ?_, ?_, ?_, ?_⟩, ?_, ?_⟩
            · rw [show ({ s with
                  heap := hmod s.heap a
                    (fun u => { u with categories := u.categories ++ [target] }),
                  index := imod (iensure s.index target) target
                    (fun rs => rs ++ [a]) } : Store).index =
                  imod (iensure s.index target) target (fun rs => rs ++ [a]) from rfl, hAllf]
              exact hwf.allKey
            · intro p' hp' r hr
              rcases addTask_index_mem1 s.index target a p' hp' r hr with
                ⟨q, hq, hk, hrq⟩ | ⟨hra, hk⟩
              · by_cases hra : r = a
                · obtain ⟨u, hu1, hc1, hc2⟩ := hwf.refValid q hq r hrq
                  have hut : u = t := by
                    rw [hra, hfa] at hu1
                    exact (Option.some.inj hu1).symm
                  refine ⟨{ t with categories := t.categories ++ [target] },
                    by rw [hra]; exact hfa1, ?_, ?_⟩
                  · exact List.mem_append_left _ (hk ▸ (hut ▸ hc1))
                  · exact List.mem_append_left _ hallc
                · obtain ⟨u, hu1, hc1, hc2⟩ := hwf.refValid q hq r hrq
                  exact ⟨u, by rw [hfind1 r hra]; exact hu1, hk ▸ hc1, hc2⟩
              · refine ⟨{ t with categories := t.categories ++ [target] },
                  by rw [hra]; exact hfa1, ?_, ?_⟩
                · rw [hk]
                  exact List.mem_append_right _ (List.mem_singleton_self _)
                · exact List.mem_append_left _ hallc
            · intro p' hp' r hr
              rw [show ({ s with
                  heap := hmod s.heap a
                    (fun u => { u with categories := u.categories ++ [target] }),
                  index := imod (iensure s.index target) target
                    (fun rs => rs ++ [a]) } : Store).index =
                  imod (iensure s.index target) target (fun rs => rs ++ [a]) from rfl, hAllf]
              rcases addTask_index_mem1 s.index target a p' hp' r hr with
                ⟨q, hq, hk, hrq⟩ | ⟨hra, hk⟩
              · exact hwf.inAll q hq r hrq
              · rw [hra]
                exact hwf.inAll _ hcurmem a haRefs
            · exact addTask_nodup1 s.index target a hwf.refsNodup hfrtgt
            · intro p' hp' r hr
              rcases addTask_index_mem1 s.index target a p' hp' r hr with
                ⟨q, hq, hk, hrq⟩ | ⟨hra, hk⟩
              · exact hwf.refsBound q hq r hrq
              · rw [hra]
                exact hwf.refsBound _ hcurmem a haRefs
            · intro q hq
              have hq1 : q.1 ∈ (hmod s.heap a
                  (fun u => { u with categories := u.categories ++ [target] })).map Prod.fst :=
                List.mem_map_of_mem Prod.fst hq
              rw [hmod_map_fst] at hq1
              obtain ⟨q0, hq0, he⟩ := List.mem_map.mp hq1
              exact he ▸ hwf.heapBound q0 hq0
            · intro p hp q hq r hr r' hr' u u' hfr hfr' hid
              have hmem1 : ∃ qz ∈ s.index, r ∈ qz.2 := by
                rcases addTask_index_mem1 s.index target a p hp r hr with
                  ⟨qz, hqz, _, hrz⟩ | ⟨hra, _⟩
                · exact ⟨qz, hqz, hrz⟩
                · exact ⟨_, hcurmem, hra ▸ haRefs⟩
              have hmem2 : ∃ qz ∈ s.index, r' ∈ qz.2 := by
                rcases addTask_index_mem1 s.index target a q hq r' hr' with
                  ⟨qz, hqz, _, hrz⟩ | ⟨hra, _⟩
                · exact ⟨qz, hqz, hrz⟩
                · exact ⟨_, hcurmem, hra ▸ haRefs⟩
              obtain ⟨qp, hqp, hrp⟩ := hmem1
              obtain ⟨qq, hqq, hrq2⟩ := hmem2
              obtain ⟨uz, huz, hie⟩ := hidpres r u hfr
              obtain ⟨uz', huz', hie'⟩ := hidpres r' u' hfr'
              exact hu qp hqp qq hqq r hrp r' hrq2 uz uz' huz huz'
                (by rw [← hie, ← hie', hid])
            · intro i hi
              obtain ⟨p, hp, r, hr, u, hfr, hid⟩ := hi
              have hmem1 : ∃ qz ∈ s.index, r ∈ qz.2 := by
                rcases addTask_index_mem1 s.index target a p hp r hr with
                  ⟨qz, hqz, _, hrz⟩ | ⟨hra, _⟩
                · exact ⟨qz, hqz, hrz⟩
                · exact ⟨_, hcurmem, hra ▸ haRefs⟩
              obtain ⟨qp, hqp, hrp⟩ := hmem1
              obtain ⟨uz, huz, hie⟩ := hidpres r u hfr
              exact ⟨qp, hqp, r, hrp, uz, huz, by rw [← hie, hid]⟩
          by_cases hcurAll : s.current = "All"
          · rw [if_pos hcurAll]
            exact ⟨wf_ensureKeys _ hA.1, unique_ensureKeys _ hA.2.1,
              fun i hi => hA.2.2 i (idIn_ensureKeys _ i hi)⟩
          · rw [if_neg hcurAll]
            have hB := step_filterCurErase
              { s with
                heap := hmod s.heap a
                  (fun u => { u with categories := u.categories ++ [target] }),
                index := imod (iensure s.index target) target (fun rs => rs ++ [a]) }
              tid a { t with categories := t.categories ++ [target] }
              hA.1 hA.2.1 hcurAll hfa1 htid
            exact ⟨wf_ensureKeys _ hB.1, unique_ensureKeys _ hB.2.1,
              fun i hi => hA.2.2 i (hB.2.2 i (idIn_ensureKeys _ i hi))⟩
        · rw [if_neg htgt, if_neg htgt]
          by_cases hcurAll : s.current = "All"
          · rw [if_pos hcurAll]
            exact ⟨wf_ensureKeys _ hwf, unique_ensureKeys _ hu,
              fun i hi => idIn_ensureKeys _ i hi⟩
          · rw [if_neg hcurAll]
            have hB := step_filterCurErase s tid a t hwf hu hcurAll hfa htid
            exact ⟨wf_ensureKeys _ hB.1, unique_ensureKeys _ hB.2.1,
              fun i hi => hB.2.2 i (idIn_ensureKeys _ i hi)⟩

/-- Under the invariant, the re-homing loop of `remove_category` never appends
anything: every task of the removed category is already (value-equally)
present in `"All"`. -/
theorem rehomePass_id (s : Store) (hwf : WF s) (refs : List Nat)
    (hsub : ∀ r ∈ refs, ∃ q ∈ s.index, r ∈ q.2) :
    rehomePass s.heap s.index refs = s.index := by
  unfold rehomePass
  induction refs with
  | nil => rfl
  | cons r0 rest ih =>
    rw [List.foldl_cons]
    have hstep : (match hfind s.heap r0 with
        | none => s.index
        | some t =>
          match ifind s.index "All" with
          | none => s.index
          | some allRefs =>
            if allRefs.any (fun r' => hfind s.heap r' = some t) then s.index
            else imod s.index "All" (fun rs => rs ++ [r0])) = s.index := by
      obtain ⟨q, hq, hrq⟩ := hsub r0 (List.mem_cons_self _ _)
      obtain ⟨t, ht, _, _⟩ := hwf.refValid q hq r0 hrq
      rw [ht]
      obtain ⟨al, hal⟩ := Option.isSome_iff_exists.mp hwf.allKey
      rw [hal]
      dsimp only
      have hany : al.any (fun r' => hfind s.heap r' = some t) = true := by
        refine List.any_eq_true.mpr ⟨r0, ?_, ?_⟩
        · have := hwf.inAll q hq r0 hrq
          rw [hal] at this
          exact this
        · exact decide_eq_true ht
      rw [if_pos hany]
    rw [hstep]
    exact ih (fun r hr => hsub r (List.mem_cons_of_mem _ hr))

theorem step_removeCategory (s : Store) (name : String) (hwf : WF s) (hu : UniqueIds s) :
    WF (removeCategory s name).1 ∧ UniqueIds (removeCategory s name).1 ∧
    (∀ i, IdIn (removeCategory s name).1 i → IdIn s i) := by
  rw [removeCategory]
  by_cases hg : name ≠ "All" ∧ name ∈ s.categories
  · rw [if_pos hg]
    cases hcn : ifind s.index name with
    | none => exact ⟨hwf, hu, fun i hi => hi⟩
    | some refs =>
      dsimp only
      by_cases hguard : refs ≠ [] ∧ ifind s.index "All" = none
      · rw [if_pos hguard]
        exact ⟨hwf, hu, fun i hi => hi⟩
      · rw [if_neg hguard]
        have hnamemem := ifind_mem _ _ _ hcn
        have hreho : rehomePass s.heap s.index refs = s.index :=
          rehomePass_id s hwf refs (fun r hr => ⟨_, hnamemem, hr⟩)
        rw [hreho]
        have hAllf : ifind (iremove s.index name) "All" = ifind s.index "All" := by
          rw [ifind_iremove, if_neg (fun he : "All" = name => hg.1 he.symm)]
        refine ⟨⟨?_, ?_, ?_, ?_, ?_, ?_⟩, ?_, ?_⟩
        · rw [show ({ s with
              index := iremove s.index name,
              categories := s.categories.erase name,
              current := (if s.current = name then "All" else s.current) } : Store).index =
              iremove s.index name from rfl, hAllf]
          exact hwf.allKey
        · intro p hp r hr
          exact hwf.refValid p (mem_iremove _ _ p hp).1 r hr
        · intro p hp r hr
          rw [show ({ s with
              index := iremove s.index name,
              categories := s.categories.erase name,
              current := (if s.current = name then "All" else s.current) } : Store).index =
              iremove s.index name from rfl, hAllf]
          exact hwf.inAll p (mem_iremove _ _ p hp).1 r hr
        · intro p hp
          exact hwf.refsNodup p (mem_iremove _ _ p hp).1
        · intro p hp r hr
          exact hwf.refsBound p (mem_iremove _ _ p hp).1 r hr
        · exact hwf.heapBound
        · intro p hp q hq r hr r' hr' u u' hfr hfr' hid
          exact hu p (mem_iremove _ _ p hp).1 q (mem_iremove _ _ q hq).1
            r hr r' hr' u u' hfr hfr' hid
        · intro i hi
          obtain ⟨p, hp, r, hr, u, hfr, hid⟩ := hi
          exact ⟨p, (mem_iremove _ _ p hp).1, r, hr, u, hfr, hid⟩
  · rw [if_neg hg]
    exact ⟨hwf, hu, fun i hi => hi⟩

/-! ## The invariant along every trace with collision-free creation times -/

theorem wf_init : WF initStore := by
  refine ⟨rfl, ?_, ?_, ?_, ?_, ?_⟩
  · intro p hp r hr
    rw [List.mem_singleton.mp hp] at hr; cases hr
  · intro p hp r hr
    rw [List.mem_singleton.mp hp] at hr; cases hr
  · intro p hp
    rw [List.mem_singleton.mp hp]; exact List.nodup_nil
  · intro p hp r hr
    rw [List.mem_singleton.mp hp] at hr; cases hr
  · intro q hq
    cases hq

theorem unique_init : UniqueIds initStore := by
  intro p hp q hq r hr r' hr' t t' ht ht' hid
  rw [List.mem_singleton.mp hp] at hr
  cases hr

theorem noIdIn_init (i : Int) : ¬ IdIn initStore i := by
  intro ⟨p, hp, r, hr, _⟩
  rw [List.mem_singleton.mp hp] at hr
  cases hr

theorem addTimes_cons (op : Op) (rest : List Op) :
    addTimes (op :: rest) = addTimes [op] ++ addTimes rest := by
  rw [addTimes, addTimes, addTimes, show op :: rest = [op] ++ rest from rfl,
    List.filterMap_append]

theorem step_applyOp (s : Store) (op : Op) (hwf : WF s) (hu : UniqueIds s)
    (hfresh : ∀ i ∈ addTimes [op], ¬ IdIn s i) :
    WF (applyOp s op) ∧ UniqueIds (applyOp s op) ∧
    (∀ i, IdIn (applyOp s op) i → IdIn s i ∨ i ∈ addTimes [op]) := by
  cases op with
  | addTask text category priority bold nowStr nowMs =>
    have h := step_addTask s text category priority bold nowStr nowMs hwf hu
      (hfresh nowMs (by simp [addTimes]))
    exact ⟨h.1, h.2.1, fun i hi => (h.2.2 i hi).imp id (fun he => by simp [addTimes, he])⟩
  | toggleTask index category now =>
    have h := step_toggleTask s index category now hwf hu
    exact ⟨h.1, h.2.1, fun i hi => Or.inl (h.2.2 i hi)⟩
  | editTask taskId newText =>
    have h := step_editTask s taskId newText hwf hu
    exact ⟨h.1, h.2.1, fun i hi => Or.inl (h.2.2 i hi)⟩
  | toggleTaskBold taskId =>
    have h := step_toggleTaskBold s taskId hwf hu
    exact ⟨h.1, h.2.1, fun i hi => Or.inl (h.2.2 i hi)⟩
  | moveTaskToCategory taskId category =>
    have h := step_moveTaskToCategory s taskId category hwf hu
    exact ⟨h.1, h.2.1, fun i hi => Or.inl (h.2.2 i hi)⟩
  | removeTaskFromCategory taskId =>
    have h := step_removeTaskFromCategory s taskId hwf hu
    exact ⟨h.1, h.2.1, fun i hi => Or.inl (h.2.2 i hi)⟩
  | removeTask taskId =>
    have h := step_removeTask s taskId hwf hu
    exact ⟨h.1, h.2.1, fun i hi => Or.inl (h.2.2 i hi)⟩
  | completeAllTasks category now =>
    have h := step_completeAllTasks s category now hwf hu
    exact ⟨h.1, h.2.1, fun i hi => Or.inl (h.2.2 i hi)⟩
  | addCategory name =>
    have h := step_addCategory s name hwf hu
    exact ⟨h.1, h.2.1, fun i hi => Or.inl (h.2.2 i hi)⟩
  | editCategory oldName newName =>
    have h := step_editCategory s oldName newName hwf hu
    exact ⟨h.1, h.2.1, fun i hi => Or.inl (h.2.2 i hi)⟩
  | removeCategory name =>
    have h := step_removeCategory s name hwf hu
    exact ⟨h.1, h.2.1, fun i hi => Or.inl (h.2.2 i hi)⟩
  | switchCategory name =>
    have h := step_switchCategory s name hwf hu
    exact ⟨h.1, h.2.1, fun i hi => Or.inl (h.2.2 i hi)⟩

theorem wf_runAux (ops : List Op) (s : Store) (hwf : WF s) (hu : UniqueIds s)
    (hfresh : ∀ i ∈ addTimes ops, ¬ IdIn s i)
    (hnd : (addTimes ops).Nodup) :
    WF (ops.foldl applyOp s) ∧ UniqueIds (ops.foldl applyOp s) := by
  induction ops generalizing s with
  | nil => exact ⟨hwf, hu⟩
  | cons op rest ih =>
    rw [List.foldl_cons]
    rw [addTimes_cons] at hfresh hnd
    rw [List.nodup_append] at hnd
    obtain ⟨h1, h2, h3⟩ :=
      step_applyOp s op hwf hu (fun i hi => hfresh i (List.mem_append_left _ hi))
    refine ih (applyOp s op) h1 h2 ?_ hnd.2.1
    intro i hi hIdIn
    rcases h3 i hIdIn with hold | hnew
    · exact hfresh i (List.mem_append_right _ hi) hold
    · exact hnd.2.2 hnew hi

theorem wf_run (ops : List Op) (hnd : (addTimes ops).Nodup) :
    WF (runOps ops) ∧ UniqueIds (runOps ops) :=
  wf_runAux ops initStore wf_init unique_init (fun i _ => noIdIn_init i) hnd

theorem addTimes_take_nodup (ops : List Op) (hnd : (addTimes ops).Nodup) (k : Nat) :
    (addTimes (ops.take k)).Nodup :=
  List.Nodup.sublist (List.Sublist.filterMap _ (List.take_sublist k ops)) hnd

/-! ## Toggle postcondition under unique ids -/

theorem hfind_toggleInner_fixpoint (rs : List Nat) (tid : Int) (nd : Bool)
    (nt : Option String) (h0 : Heap) (r : Nat) (u : Task)
    (hr : hfind h0 r = some u) (hd : u.done = nd) (ht : u.completed_time = nt) :
    hfind (rs.foldl (fun h r' =>
      match hfind h r' with
      | some v =>
        if v.id = tid
        then hmod h r' (fun w => { w with done := nd, completed_time := nt })
        else h
      | none => h) h0) r = some u := by
  induction rs generalizing h0 with
  | nil => exact hr
  | cons r0 rest ih =>
    simp only [List.foldl_cons]
    refine ih _ ?_
    cases h0r0 : hfind h0 r0 with
    | none => exact hr
    | some v =>
      dsimp only
      by_cases hv : v.id = tid
      · rw [if_pos hv, hfind_hmod]
        by_cases hrr0 : r = r0
        · subst hrr0
          rw [if_pos rfl, hr, Option.map_some']
          rw [← hd, ← ht]
        · rw [if_neg hrr0]; exact hr
      · rw [if_neg hv]; exact hr

/-- A cell that already carries the propagated `done`/`completed_time` values
is left unchanged by the fan-out loop of `toggle_task`. -/
theorem propagateDone_fixpoint (h0 : Heap) (idx : Index) (cats : List String)
    (tid : Int) (nd : Bool) (nt : Option String) (r : Nat) (u : Task)
    (hr : hfind h0 r = some u) (hd : u.done = nd) (ht : u.completed_time = nt) :
    hfind (propagateDone h0 idx cats tid nd nt) r = some u := by
  rw [propagateDone]
  induction cats generalizing h0 with
  | nil => exact hr
  | cons c rest ih =>
    simp only [List.foldl_cons]
    refine ih _ ?_
    cases hic : ifind idx c with
    | none => exact hr
    | some rs =>
      dsimp only
      exact hfind_toggleInner_fixpoint rs tid nd nt h0 r u hr hd ht

/-- Postcondition of `toggle_task` on a well-formed store with unique ids:
the task at the chosen position gets the flipped `done` and the matching
`completed_time`, and every referenced task sharing its id (in any category's
sequence) carries the same two values afterwards. -/
theorem toggleTask_spec (s : Store) (hu : UniqueIds s)
    (index : Nat) (category : Option String) (now : String)
    (refs : List Nat)
    (hc : ifind s.index (resolveCat category s.current) = some refs)
    (hlen : index < refs.length) (t : Task)
    (hft : hfind s.heap (refs.get ⟨index, hlen⟩) = some t) :
    hfind (toggleTask s index category now).heap (refs.get ⟨index, hlen⟩) =
      some { t with done := !t.done,
                    completed_time := if !t.done then some now else none } ∧
    ∀ c' rs', ifind (toggleTask s index category now).index c' = some rs' →
      ∀ r' ∈ rs', ∀ u : Task,
        hfind (toggleTask s index category now).heap r' = some u →
        u.id = t.id →
        u.done = (!t.done) ∧
        u.completed_time = (if !t.done then some now else none) := by
  rw [toggleTask, hc]
  dsimp only
  rw [dif_pos hlen]
  rw [hft]
  dsimp only
  have h1 : hfind
      (propagateDone
        (hmod s.heap (refs.get ⟨index, hlen⟩)
          (fun u => { u with done := !t.done,
                             completed_time := if !t.done then some now else none }))
        s.index t.categories t.id (!t.done)
        (if !t.done then some now else none))
      (refs.get ⟨index, hlen⟩) =
      some { t with done := !t.done,
                    completed_time := if !t.done then some now else none } := by
    refine propagateDone_fixpoint _ _ _ _ _ _ _ _ ?_ rfl rfl
    rw [hfind_hmod, if_pos rfl, hft, Option.map_some']
  refine ⟨h1, ?_⟩
  intro c' rs' hcs r' hr' u hu' hid
  have hsk : SkelEq s.heap
      (propagateDone
        (hmod s.heap (refs.get ⟨index, hlen⟩)
          (fun u => { u with done := !t.done,
                             completed_time := if !t.done then some now else none }))
        s.index t.categories t.id (!t.done)
        (if !t.done then some now else none)) :=
    skelEq_trans s.heap
      (hmod s.heap (refs.get ⟨index, hlen⟩)
        (fun u => { u with done := !t.done,
                           completed_time := if !t.done then some now else none })) _
      (skelEq_hmod s.heap (refs.get ⟨index, hlen⟩) _ (fun v => ⟨rfl, rfl⟩))
      (skelEq_propagateDone _ s.index t.categories t.id _ _)
  obtain ⟨u0, hu0, hu0id, _⟩ := skelEq_some_rev _ _ hsk r' u hu'
  have hmem : (c', rs') ∈ s.index := by
    have hmem0 := ifind_mem _ c' rs' hcs
    rcases mem_foldl_iensure _ _ _ hmem0 with h | h
    · exact h
    · have h2 : rs' = [] := h
      rw [h2] at hr'; cases hr'
  have hra : r' = refs.get ⟨index, hlen⟩ := by
    refine hu (c', rs') hmem (resolveCat category s.current, refs) (ifind_mem _ _ _ hc)
      r' hr' (refs.get ⟨index, hlen⟩) (List.get_mem refs index hlen)
      u0 t hu0 hft ?_
    rw [← hu0id, hid]
  rw [hra, ensureKeys_heap] at hu'
  dsimp only at hu'
  rw [h1] at hu'
  have he := Option.some.inj hu'
  rw [← he]
  exact ⟨rfl, rfl⟩

/-- C1 (amended): along every mutation trace whose `add_task` creation
timestamps (`int(time.time()*1000)`) are pairwise distinct, every prefix of the
trace leaves the store with the `"All"`-superset property: each task reachable
from a non-`"All"` category sequence is also reachable, with the same id, from
the `"All"` sequence.  (The unamended claim fails when two creations share a
clock millisecond.) -/
theorem c1_amended_all_superset (ops : List Op)
    (hnd : (addTimes ops).Nodup) (k : Nat) :
    AllSuperset (runOps (ops.take k)) := by
  obtain ⟨hwf, _⟩ := wf_run (ops.take k) (addTimes_take_nodup ops hnd k)
  intro p hp _ r hr t ht
  exact ⟨r, hwf.inAll p hp r hr, t, ht, rfl⟩

theorem c1_amended_all_superset_witness :
    (addTimes demoTrace).Nodup ∧ AllSuperset (runOps (demoTrace.take 3)) :=
  ⟨by decide, c1_amended_all_superset demoTrace (by decide) 3⟩

/-- C7 (amended): along every mutation trace with pairwise distinct creation
timestamps, if a task with id `tid` is found in the current category's
sequence, `remove_task(tid)` returns `True` and leaves zero references to a
task of id `tid` in any category sequence of the index.  (The unamended claim
fails when two creations share a clock millisecond.) -/
theorem c7_amended_remove_task (ops : List Op) (hnd : (addTimes ops).Nodup)
    (tid : Int) (refs : List Nat)
    (hc : ifind (runOps ops).index (runOps ops).current = some refs)
    (a : Nat) (hf : findById (runOps ops).heap refs tid = some a) :
    (removeTask (runOps ops) tid).2 = true ∧
    (∀ p ∈ (removeTask (runOps ops) tid).1.index, ∀ r ∈ p.2, ∀ u : Task,
      hfind (removeTask (runOps ops) tid).1.heap r = some u → u.id ≠ tid) := by
  obtain ⟨hwf, hu⟩ := wf_run ops hnd
  exact removeTask_spec (runOps ops) tid hwf hu refs hc a hf

theorem c7_amended_remove_task_witness :
    (addTimes c7Trace).Nodup ∧ (removeTask (runOps c7Trace) 5).2 = true :=
  ⟨by decide,
   (c7_amended_remove_task c7Trace (by decide) 5 [0, 1] (by decide) 0 (by decide)).1⟩

/-- C6 (amended): along every mutation trace with pairwise distinct creation
timestamps, `toggle_task(index, C)` on an in-range position of category `C`
holding task `t` flips that task's `done`, sets `completed_time` to the clock
string on a false-to-true transition and to `None` on a true-to-false
transition, and afterwards every referenced task sharing the id of `t` (in any
category sequence) carries those same two values.  (The unamended claim fails
when two creations share a clock millisecond.) -/
theorem c6_amended_toggle (ops : List Op) (hnd : (addTimes ops).Nodup)
    (index : Nat) (category : Option String) (now : String)
    (refs : List Nat)
    (hc : ifind (runOps ops).index
      (resolveCat category (runOps ops).current) = some refs)
    (hlen : index < refs.length) (t : Task)
    (hft : hfind (runOps ops).heap (refs.get ⟨index, hlen⟩) = some t) :
    hfind (toggleTask (runOps ops) index category now).heap
        (refs.get ⟨index, hlen⟩) =
      some { t with done := !t.done,
                    completed_time := if !t.done then some now else none } ∧
    ∀ c' rs',
      ifind (toggleTask (runOps ops) index category now).index c' = some rs' →
      ∀ r' ∈ rs', ∀ u : Task,
        hfind (toggleTask (runOps ops) index category now).heap r' = some u →
        u.id = t.id →
        u.done = (!t.done) ∧
        u.completed_time = (if !t.done then some now else none) := by
  obtain ⟨hwf, hu⟩ := wf_run ops hnd
  exact toggleTask_spec (runOps ops) hu index category now refs hc hlen t hft

theorem c6_amended_toggle_witness :
    (addTimes c6Trace).Nodup ∧
    hfind (toggleTask (runOps c6Trace) 0 (some "All") "NOW").heap
        (([0, 1] : List Nat).get ⟨0, by decide⟩) =
      some { demoTaskA with
             done := !demoTaskA.done,
             completed_time := if !demoTaskA.done then some "NOW" else none } :=
  ⟨by decide,
   (c6_amended_toggle c6Trace (by decide) 0 (some "All") "NOW" [0, 1]
      (by decide) (by decide) demoTaskA (by decide)).1⟩

/-! ## Save/load round trip -/

theorem foldl_iensure_id (cats : List String) :
    ∀ i : Index, (∀ c ∈ cats, (ifind i c).isSome = true) →
      cats.foldl (fun i c => iensure i c) i = i := by
  induction cats with
  | nil => intro i _; rfl
  | cons c rest ih =>
    intro i h
    rw [List.foldl_cons]
    have h1 : iensure i c = i := by
      rw [iensure]
      cases hic : ifind i c with
      | some rs => rfl
      | none =>
        have h2 := h c (List.mem_cons_self c rest)
        rw [hic] at h2
        cases h2
    rw [h1]
    exact ih i (fun d hd => h d (List.mem_cons_of_mem c hd))

theorem ensureKeys_eq_self (s : Store)
    (hcats : ∀ c ∈ s.categories, (ifind s.index c).isSome = true) :
    ensureKeys s = s := by
  rw [ensureKeys, foldl_iensure_id s.categories s.index hcats]

theorem validateTask_of_normalized (t : Task) (h : normalizeTask t = t) :
    validateTask t = true := by
  have hp := congrArg Task.priority h
  rw [normalizeTask] at hp
  dsimp only at hp
  by_cases hmem : t.priority ∈ ["high", "medium", "low", "none"]
  · rw [validateTask]
    simp only [List.mem_cons, List.not_mem_nil, or_false] at hmem
    exact decide_eq_true hmem
  · rw [if_neg hmem] at hp
    exact absurd (hp ▸ show ("none" : String) ∈ ["high", "medium", "low", "none"] by simp) hmem

theorem filterMap_filter_match (l : List Nat) (f : Nat → Option Task) (p : Task → Bool) :
    (l.filter (fun r =>
      match f r with
      | some t => p t
      | none => false)).filterMap f = (l.filterMap f).filter p := by
  induction l with
  | nil => rfl
  | cons r rest ih =>
    simp only [List.filter_cons, List.filterMap_cons]
    cases hf : f r with
    | none =>
      simp only [hf]
      exact ih
    | some t =>
      simp only [hf]
      by_cases hp : p t = true
      · rw [if_pos hp, List.filterMap_cons, hf]
        dsimp only
        rw [ih, List.filter_cons, if_pos hp]
      · rw [if_neg hp, ih, List.filter_cons, if_neg hp]

theorem fanAddrs_ge (docAll : List Task) (c : String) :
    ∀ n0, ∀ a ∈ fanAddrs docAll n0 c, n0 ≤ a := by
  induction docAll with
  | nil => intro n0 a ha; cases ha
  | cons t rest ih =>
    intro n0 a ha
    rw [fanAddrs] at ha
    by_cases hc : c ∈ (normalizeTask t).categories
    · rw [if_pos hc] at ha
      rcases List.mem_cons.mp ha with h | h
      · exact h ▸ Nat.le_refl n0
      · exact Nat.le_of_succ_le (ih (n0 + 1) a h)
    · rw [if_neg hc] at ha
      exact Nat.le_of_succ_le (ih (n0 + 1) a ha)

theorem hfind_allocHeap_spec (docAll : List Task) :
    ∀ n0 c, (fanAddrs docAll n0 c).filterMap (hfind (allocHeap docAll n0)) =
      (docAll.map normalizeTask).filter (fun t => decide (c ∈ t.categories)) := by
  induction docAll with
  | nil => intro n0 c; rfl
  | cons t rest ih =>
    intro n0 c
    have hcg : (fanAddrs rest (n0 + 1) c).filterMap
          (hfind ((n0, normalizeTask t) :: allocHeap rest (n0 + 1))) =
        (fanAddrs rest (n0 + 1) c).filterMap (hfind (allocHeap rest (n0 + 1))) := by
      refine List.filterMap_congr ?_
      intro a ha
      have hge := fanAddrs_ge rest c (n0 + 1) a ha
      rw [hfind, if_neg (Nat.ne_of_lt (Nat.lt_of_lt_of_le (Nat.lt_succ_self n0) hge))]
    rw [fanAddrs, allocHeap, List.map_cons, List.filter_cons]
    by_cases hc : c ∈ (normalizeTask t).categories
    · rw [if_pos hc, List.filterMap_cons]
      rw [show hfind ((n0, normalizeTask t) :: allocHeap rest (n0 + 1)) n0 =
        some (normalizeTask t) from by rw [hfind, if_pos rfl]]
      dsimp only
      rw [hcg, ih (n0 + 1) c, if_pos (decide_eq_true hc)]
    · rw [if_neg hc, hcg, ih (n0 + 1) c,
        if_neg (by simpa using hc)]

theorem loadFanOut_cats (a : Nat) (tcats : List String) (cats1 : List String) :
    ∀ idx : Index, (∀ c ∈ tcats, c ∈ cats1) →
      (loadFanOut a tcats (cats1, idx)).1 = cats1 := by
  induction tcats with
  | nil => intro idx _; rfl
  | cons d rest ih =>
    intro idx h
    rw [loadFanOut, List.foldl_cons]
    dsimp only
    rw [if_pos (h d (List.mem_cons_self d rest))]
    exact ih _ (fun c hc => h c (List.mem_cons_of_mem d hc))

theorem loadFanOut_ifind (a : Nat) (tcats : List String) (c : String) :
    ∀ (cats1 : List String) (idx : Index), tcats.Nodup →
      ifind (loadFanOut a tcats (cats1, idx)).2 c =
        (ifind idx c).map (fun rs => if c ∈ tcats then rs ++ [a] else rs) := by
  induction tcats with
  | nil =>
    intro cats1 idx _
    simp [loadFanOut]
  | cons d rest ih =>
    intro cats1 idx hnd
    rcases List.nodup_cons.mp hnd with ⟨hdnr, hndr⟩
    rw [loadFanOut, List.foldl_cons]
    dsimp only
    cases hio : ifind idx d with
    | none =>
      dsimp only
      refine (ih _ _ hndr).trans ?_
      by_cases hcd : c = d
      · subst hcd
        simp [hio]
      · simp [List.mem_cons, hcd]
    | some rs0 =>
      dsimp only
      refine (ih _ _ hndr).trans ?_
      rw [ifind_imod]
      by_cases hcd : c = d
      · subst hcd
        rw [if_pos rfl]
        cases hx : ifind idx c <;> simp [hdnr]
      · rw [if_neg hcd]
        simp [List.mem_cons, hcd]

theorem loadAllLoop_spec (docAll : List Task) :
    ∀ (n0 : Nat) (h0 : Heap) (cats0 : List String) (idx0 : Index),
      (∀ td ∈ docAll, ∀ c ∈ (normalizeTask td).categories, c ∈ cats0) →
      (∀ td ∈ docAll, (normalizeTask td).categories.Nodup) →
      (loadAllLoop docAll n0 h0 cats0 idx0).1 = h0 ++ allocHeap docAll n0 ∧
      (loadAllLoop docAll n0 h0 cats0 idx0).2.2.1 = cats0 ∧
      (∀ c, ifind (loadAllLoop docAll n0 h0 cats0 idx0).2.2.2 c =
        (ifind idx0 c).map (fun rs => rs ++ fanAddrs docAll n0 c)) := by
  induction docAll with
  | nil =>
    intro n0 h0 cats0 idx0 _ _
    refine ⟨by simp [loadAllLoop, allocHeap], rfl, ?_⟩
    intro c
    rw [show fanAddrs [] n0 c = [] from rfl]
    cases hx : ifind idx0 c <;> simp [loadAllLoop, hx]
  | cons td rest ih =>
    intro n0 h0 cats0 idx0 hcats hnodup
    rw [loadAllLoop, List.foldl_cons]
    dsimp only
    have hp1 : (loadFanOut n0 (normalizeTask td).categories (cats0, idx0)).1 = cats0 :=
      loadFanOut_cats n0 (normalizeTask td).categories cats0 idx0
        (fun c hc => hcats td (List.mem_cons_self td rest) c hc)
    rw [hp1]
    have hrec := ih (n0 + 1) (h0 ++ [(n0, normalizeTask td)]) cats0
      (loadFanOut n0 (normalizeTask td).categories (cats0, idx0)).2
      (fun t ht c hc => hcats t (List.mem_cons_of_mem td ht) c hc)
      (fun t ht => hnodup t (List.mem_cons_of_mem td ht))
    refine ⟨?_, hrec.2.1, ?_⟩
    · refine hrec.1.trans ?_
      rw [allocHeap]
      simp [List.append_assoc]
    · intro c
      refine (hrec.2.2 c).trans ?_
      rw [loadFanOut_ifind n0 (normalizeTask td).categories c cats0 idx0
        (hnodup td (List.mem_cons_self td rest))]
      rw [fanAddrs]
      by_cases hc : c ∈ (normalizeTask td).categories
      · rw [if_pos hc]
        cases hx : ifind idx0 c <;> simp [hc]
      · rw [if_neg hc]
        cases hx : ifind idx0 c <;> simp [hc]

/-- C2 (amended): `save_tasks` followed by `load_tasks` reproduces the index
field-for-field for every store whose index keys are exactly the listed
categories, whose per-category sequences are the `"All"` sequence filtered by
category membership, and whose referenced tasks are normalization-stable with
duplicate-free category sets listed in `self.categories`: the reloaded store
has the same category list, and under every category name the same task values
in the same order.  (The unamended claim fails for index keys missing from
`self.categories`, which the round trip drops.) -/
theorem c2_amended_save_load_roundtrip (s : Store) (fs : FS)
    (allRefs : List Nat) (hAllRefs : ifind s.index "All" = some allRefs)
    (hkeys : ∀ p ∈ s.index, p.1 ∈ s.categories)
    (hcats : ∀ c ∈ s.categories, (ifind s.index c).isSome = true)
    (hAll : "All" ∈ s.categories)
    (horder : ∀ p ∈ s.index, p.2 = allRefs.filter (fun r =>
      match hfind s.heap r with
      | some t => decide (p.1 ∈ t.categories)
      | none => false))
    (hnorm : ∀ r ∈ allRefs, (hfind s.heap r).map normalizeTask = hfind s.heap r)
    (htcats : ∀ r ∈ allRefs,
      ((hfind s.heap r).all
        (fun t => t.categories.all (fun c => decide (c ∈ s.categories)))) = true)
    (htnodup : ∀ r ∈ allRefs,
      ((hfind s.heap r).all (fun t => decide t.categories.Nodup)) = true) :
    (loadStore (saveTasks s fs).2).1.categories = s.categories ∧
    ∀ c, valuesAt (loadStore (saveTasks s fs).2).1 c = valuesAt s c := by
  have hens : ensureKeys s = s := ensureKeys_eq_self s hcats
  have hvaltask : ∀ c rs, ifind s.index c = some rs →
      ∀ t ∈ rs.filterMap (hfind s.heap), validateTask t = true := by
    intro c rs hic t ht
    obtain ⟨r, hr, hfr⟩ := List.mem_filterMap.mp ht
    have hrs : rs = allRefs.filter (fun r =>
        match hfind s.heap r with
        | some u => decide (c ∈ u.categories)
        | none => false) := horder (c, rs) (ifind_mem _ _ _ hic)
    rw [hrs] at hr
    have hrA := (List.mem_filter.mp hr).1
    have hn := hnorm r hrA
    rw [hfr, Option.map_some'] at hn
    exact validateTask_of_normalized t (Option.some.inj hn)
  have hvalid : validateDoc (buildDoc s) = true := by
    rw [validateDoc, List.all_eq_true]
    intro p hp
    rw [buildDoc] at hp
    dsimp only at hp
    rw [List.all_eq_true]
    intro t ht
    rcases List.mem_cons.mp hp with he | hm
    · rw [he] at ht
      dsimp only at ht
      rw [valuesAt, hAllRefs] at ht
      simp only [Option.map_some', Option.getD_some] at ht
      exact hvaltask "All" allRefs hAllRefs t ht
    · obtain ⟨c, hcmem, he⟩ := List.mem_map.mp hm
      rw [← he] at ht
      dsimp only at ht
      cases hic : ifind s.index c with
      | none =>
        rw [valuesAt, hic] at ht
        simp only [Option.map_none', Option.getD_none] at ht
        exact absurd ht (List.not_mem_nil t)
      | some rs =>
        rw [valuesAt, hic] at ht
        simp only [Option.map_some', Option.getD_some] at ht
        exact hvaltask c rs hic t ht
  have hfsT : (saveTasks s fs).2.tasksFile = some (buildDoc s) := by
    rw [saveTasks, hens]
    cases hft : fs.tasksFile with
    | none =>
      dsimp only
      rw [if_pos hvalid]
    | some d =>
      dsimp only
      rw [if_pos hvalid]
  have hfsC : (saveTasks s fs).2.categoriesFile = some s.categories := by
    rw [saveTasks, hens]
    cases hft : fs.tasksFile with
    | none =>
      dsimp only
      rw [if_pos hvalid]
    | some d =>
      dsimp only
      rw [if_pos hvalid]
  have hdocnorm : ∀ td ∈ allRefs.filterMap (hfind s.heap), normalizeTask td = td := by
    intro td htd
    obtain ⟨r, hr, hfr⟩ := List.mem_filterMap.mp htd
    have hn := hnorm r hr
    rw [hfr, Option.map_some'] at hn
    exact Option.some.inj hn
  have hdoccats : ∀ td ∈ allRefs.filterMap (hfind s.heap),
      ∀ c ∈ (normalizeTask td).categories, c ∈ s.categories := by
    intro td htd c hc
    obtain ⟨r, hr, hfr⟩ := List.mem_filterMap.mp htd
    have h1 := htcats r hr
    rw [hfr] at h1
    have h2 : td.categories.all (fun c => decide (c ∈ s.categories)) = true := h1
    exact of_decide_eq_true (List.all_eq_true.mp h2 c hc)
  have hdocnodup : ∀ td ∈ allRefs.filterMap (hfind s.heap),
      (normalizeTask td).categories.Nodup := by
    intro td htd
    obtain ⟨r, hr, hfr⟩ := List.mem_filterMap.mp htd
    have h1 := htnodup r hr
    rw [hfr] at h1
    exact of_decide_eq_true h1
  have hspec := loadAllLoop_spec (allRefs.filterMap (hfind s.heap)) 0 []
    s.categories (initIndex s.categories) hdoccats hdocnodup
  have hinit : ∀ c, ifind (initIndex s.categories) c =
      if c ∈ s.categories then some [] else none := by
    intro c
    rw [initIndex, ifind_foldl_iensure]
    by_cases h : c ∈ s.categories
    · rw [if_pos h, if_pos h]
      rfl
    · rw [if_neg h, if_neg h]
      rfl
  have hAllIdx : ifind (loadAllLoop (allRefs.filterMap (hfind s.heap)) 0 []
        s.categories (initIndex s.categories)).2.2.2 "All" =
      some ([] ++ fanAddrs (allRefs.filterMap (hfind s.heap)) 0 "All") := by
    rw [hspec.2.2 "All", hinit "All", if_pos hAll, Option.map_some']
  have hiensure : iensure (loadAllLoop (allRefs.filterMap (hfind s.heap)) 0 []
        s.categories (initIndex s.categories)).2.2.2 "All" =
      (loadAllLoop (allRefs.filterMap (hfind s.heap)) 0 []
        s.categories (initIndex s.categories)).2.2.2 := by
    rw [iensure, hAllIdx]
  have hdfind : dfind (buildDoc s).docTasks "All" =
      some ((valuesAt s "All").getD []) := by
    rw [buildDoc]
    dsimp only
    rw [dfind, if_pos rfl]
  have hvAll : (valuesAt s "All").getD [] = allRefs.filterMap (hfind s.heap) := by
    rw [valuesAt, hAllRefs]
    rfl
  have hloaded : (loadStore (saveTasks s fs).2).1 =
      { heap := (loadAllLoop (allRefs.filterMap (hfind s.heap)) 0 []
          s.categories (initIndex s.categories)).1,
        nextAddr := (loadAllLoop (allRefs.filterMap (hfind s.heap)) 0 []
          s.categories (initIndex s.categories)).2.1,
        index := (loadAllLoop (allRefs.filterMap (hfind s.heap)) 0 []
          s.categories (initIndex s.categories)).2.2.2,
        categories := (loadAllLoop (allRefs.filterMap (hfind s.heap)) 0 []
          s.categories (initIndex s.categories)).2.2.1,
        current := "All", defaultBold := false } := by
    rw [loadStore, hfsT, hfsC]
    dsimp only
    rw [hdfind]
    simp only [Option.getD_some]
    rw [hvAll, hiensure]
  refine ⟨?_, ?_⟩
  · rw [hloaded]
    exact hspec.2.1
  · intro c
    rw [hloaded, valuesAt]
    dsimp only
    rw [hspec.2.2 c, hinit c]
    by_cases hcmem : c ∈ s.categories
    · rw [if_pos hcmem, Option.map_some', Option.map_some', List.nil_append]
      rw [hspec.1, List.nil_append, hfind_allocHeap_spec]
      rw [show (allRefs.filterMap (hfind s.heap)).map normalizeTask =
          allRefs.filterMap (hfind s.heap) from
        (List.map_congr_left hdocnorm).trans (List.map_id _)]
      obtain ⟨rs, hic⟩ := Option.isSome_iff_exists.mp (hcats c hcmem)
      rw [valuesAt, hic, Option.map_some']
      have hrs : rs = allRefs.filter (fun r =>
          match hfind s.heap r with
          | some u => decide (c ∈ u.categories)
          | none => false) := horder (c, rs) (ifind_mem _ _ _ hic)
      rw [hrs, filterMap_filter_match]
    · rw [if_neg hcmem, Option.map_none', Option.map_none', valuesAt]
      cases hic : ifind s.index c with
      | none => rfl
      | some rs => exact absurd (hkeys (c, rs) (ifind_mem _ _ _ hic)) hcmem

theorem c2_amended_save_load_roundtrip_witness :
    (loadStore (saveTasks (runOps c2Trace) fsEmpty).2).1.categories =
      (runOps c2Trace).categories ∧
    valuesAt (loadStore (saveTasks (runOps c2Trace) fsEmpty).2).1 "Work" =
      valuesAt (runOps c2Trace) "Work" := by
  have h := c2_amended_save_load_roundtrip (runOps c2Trace) fsEmpty [0, 1]
    (by decide) (by decide) (by decide) (by decide) (by decide) (by decide)
    (by decide) (by decide)
  exact ⟨h.1, h.2 "Work"⟩

/-- C9 (amended): along every mutation trace whose `add_task` creation
timestamps are pairwise distinct, referenced task objects have pairwise
distinct ids: any two references (in any category sequences) to tasks with
equal ids are references to the same object.  (The unamended claim fails
because `int(time.time()*1000)` repeats within a millisecond.) -/
theorem c9_amended_unique_ids (ops : List Op) (hnd : (addTimes ops).Nodup) :
    UniqueIds (runOps ops) :=
  (wf_run ops hnd).2

theorem c9_amended_unique_ids_witness :
    (addTimes c9Trace).Nodup ∧ UniqueIds (runOps c9Trace) :=
  ⟨by decide, c9_amended_unique_ids c9Trace (by decide)⟩

end Checklist
